import Mathlib

/-!
Verification development for the generic_lock repository: a shallow embedding
of the lock-manager core (lock request groups, per-record request queues, the
transaction dependency graph with DFS cycle detection, and the mutex
orchestration code) together with theorems settling the specification claims.

Identifier types are modelled as natural numbers: record ids, transaction
(thread) ids, lock modes and group ids are all Nat.  The contention matrix is
a function Nat to Nat to Bool, applied as matrix (held mode) (requested mode),
mirroring contention_matrix with array indexing.  The C++ containers
(IndexedList, std::unordered_map) are modelled as association lists in
insertion order; unordered_map is only ever used through find / at / erase /
operator[], for which an association list is an exact functional model.
-/

/-- Association list lookup, modelling unordered_map find / at and
IndexedList key lookup. -/
def alookup {β : Type} (m : List (Nat × β)) (k : Nat) : Option β :=
  match m with
  | [] => none
  | (a, b) :: rest => if a = k then some b else alookup rest k

/-- Association list insert-or-assign, modelling map operator[] assignment. -/
def aset {β : Type} (m : List (Nat × β)) (k : Nat) (v : β) : List (Nat × β) :=
  match m with
  | [] => [(k, v)]
  | (a, b) :: rest => if a = k then (a, v) :: rest else (a, b) :: aset rest k v

/-- Association list erase of the first binding of a key, modelling map
erase. -/
def aerase {β : Type} (m : List (Nat × β)) (k : Nat) : List (Nat × β) :=
  match m with
  | [] => []
  | (a, b) :: rest => if a = k then rest else (a, b) :: aerase rest k

theorem alookup_aset_self {β : Type} (m : List (Nat × β)) (k : Nat) (v : β) :
    alookup (aset m k v) k = some v := by
  induction m with
  | nil => simp [aset, alookup]
  | cons p rest ih =>
    obtain ⟨a, b⟩ := p
    by_cases h : a = k
    · simp [aset, alookup, h]
    · simp [aset, alookup, h, ih]

theorem alookup_aset_ne {β : Type} (m : List (Nat × β)) (k k' : Nat) (v : β)
    (h : k ≠ k') : alookup (aset m k v) k' = alookup m k' := by
  induction m with
  | nil => simp [aset, alookup, h]
  | cons p rest ih =>
    obtain ⟨a, b⟩ := p
    by_cases ha : a = k
    · subst ha
      simp [aset, alookup, h]
    · simp [aset, alookup, ha, ih]

theorem alookup_isSome_aset {β : Type} (m : List (Nat × β)) (k k' : Nat)
    (v : β) (h : (alookup m k').isSome) : (alookup (aset m k v) k').isSome := by
  by_cases hk : k = k'
  · subst hk
    simp [alookup_aset_self]
  · rwa [alookup_aset_ne m k k' v hk]

/-- A single lock request: the requested mode and the denied flag, from
LockRequest in lock_request.hpp. -/
structure LockRequest where
  mode : Nat
  denied : Bool
  deriving DecidableEq, Repr

/-- The ordered member list of a LockRequestGroup: IndexedList of thread id
to LockRequest, in insertion order. -/
abbrev GroupReqs := List (Nat × LockRequest)

/-- LockRequestGroup EmplaceLockRequest from lock_request_group.hpp: scan the
group for a non-denied member whose held mode contends with the requested
mode; on contention return failure (none).  Otherwise IndexedList EmplaceBack
appends the new request unless the thread id is already a key, in which case
it reports failure without changing the group. -/
def groupEmplaceLockRequest (M : Nat → Nat → Bool) (reqs : GroupReqs)
    (mode txn : Nat) : Option GroupReqs :=
  if reqs.any (fun p => M p.2.mode mode && !p.2.denied) then none
  else if reqs.any (fun p => p.1 = txn) then none
  else some (reqs ++ [(txn, ⟨mode, false⟩)])

/-- One node of the group list of a queue: the group id key and the member
list, mirroring an IndexedList node. -/
structure GroupNode where
  key : Nat
  val : GroupReqs
  deriving DecidableEq, Repr

/-- A LockRequestQueue from lock_request_queue.hpp: the group list in FIFO
order and the auxiliary thread-to-group-id map. -/
structure LRQueue where
  groups : List GroupNode
  gmap : List (Nat × Nat)
  deriving DecidableEq, Repr

/-- The reserved null group id. -/
def null_group_id : Nat := 0

/-- Replace the member list of the first group node carrying the given key,
modelling mutation through the iterator returned by IndexedList
EmplaceBack / At. -/
def updateGroup (groups : List GroupNode) (gid : Nat) (f : GroupReqs → GroupReqs) :
    List GroupNode :=
  match groups with
  | [] => []
  | g :: rest =>
    if g.key = gid then ⟨g.key, f g.val⟩ :: rest
    else g :: updateGroup rest gid f

/-- IndexedList EmplaceBack on the group list: appends an empty group under
the key unless the key already exists, returning the key of the node the
resulting iterator designates and the inserted flag. -/
def groupsEmplaceBack (groups : List GroupNode) (gid : Nat) :
    List GroupNode × Nat × Bool :=
  if groups.any (fun g => g.key = gid) then (groups, gid, false)
  else (groups ++ [⟨gid, []⟩], gid, true)

/-- LockRequestQueue EmplaceNewRequestGroup: emplace an empty group at the
back of the group list, emplace the request into the group the iterator
points at (the result of that emplacement is not checked by the source), and
record the thread-to-group-id mapping. -/
def emplaceNewRequestGroup (M : Nat → Nat → Bool) (q : LRQueue)
    (gid mode txn : Nat) : LRQueue × Nat :=
  let r := groupsEmplaceBack q.groups gid
  let groups2 := updateGroup r.1 r.2.1
    (fun reqs => (groupEmplaceLockRequest M reqs mode txn).getD reqs)
  (⟨groups2, aset q.gmap txn r.2.1⟩, r.2.1)

/-- LockRequestQueue EmplaceLockRequest from lock_request_queue.hpp (the
revision returning the null id on a duplicate request): empty queue makes
group 1; a prior request by the thread yields the null id with no change;
otherwise the request joins the last group on agreement, updating the
auxiliary map, and on contention a new trailing group with the successor id
is created. -/
def queueEmplaceLockRequest (M : Nat → Nat → Bool) (q : LRQueue)
    (mode txn : Nat) : LRQueue × Nat :=
  match q.groups.getLast? with
  | none => emplaceNewRequestGroup M q (null_group_id + 1) mode txn
  | some last =>
    if (alookup q.gmap txn).isSome then (q, null_group_id)
    else
      match groupEmplaceLockRequest M last.val mode txn with
      | some g2 =>
        (⟨q.groups.dropLast ++ [⟨last.key, g2⟩], aset q.gmap txn last.key⟩,
          last.key)
      | none => emplaceNewRequestGroup M q (last.key + 1) mode txn

/-- LockRequestQueue GetGroupId: auxiliary map lookup; the at call of the
source raises out_of_range on a missing key, modelled by none. -/
def queueGetGroupId (q : LRQueue) (txn : Nat) : Option Nat :=
  alookup q.gmap txn

/-- Find the member list of the group with the given id, modelling
IndexedList At on the group list. -/
def findGroupReqs (groups : List GroupNode) (gid : Nat) : Option GroupReqs :=
  match groups with
  | [] => none
  | g :: rest => if g.key = gid then some g.val else findGroupReqs rest gid

/-- LockRequestQueue GetLockRequest: map the thread to its group id, then
fetch its request from that group; missing lookups raise in the source,
modelled by none. -/
def queueGetLockRequest (q : LRQueue) (txn : Nat) : Option LockRequest :=
  (alookup q.gmap txn).bind fun gid =>
    (findGroupReqs q.groups gid).bind fun reqs => alookup reqs txn

/-- Erase the group node with the given key, modelling IndexedList Erase on
the group list. -/
def eraseGroup (groups : List GroupNode) (gid : Nat) : List GroupNode :=
  match groups with
  | [] => []
  | g :: rest => if g.key = gid then rest else g :: eraseGroup rest gid

/-- LockRequestQueue RemoveLockRequest: erase the request from its group,
erase the group when it becomes empty, and erase the map binding; a missing
request raises out_of_range in the source, modelled by none. -/
def queueRemoveLockRequest (q : LRQueue) (txn : Nat) : Option LRQueue :=
  (alookup q.gmap txn).bind fun gid =>
    (findGroupReqs q.groups gid).bind fun reqs =>
      if (alookup reqs txn).isSome then
        let reqs2 := aerase reqs txn
        let groups2 :=
          if reqs2.isEmpty then eraseGroup q.groups gid
          else updateGroup q.groups gid (fun _ => reqs2)
        some ⟨groups2, aerase q.gmap txn⟩
      else none

/-- LockRequestQueue LockRequestExists: membership in the auxiliary map. -/
def queueLockRequestExists (q : LRQueue) (txn : Nat) : Bool :=
  (alookup q.gmap txn).isSome

/-- Set the denied flag of the request of the given thread, modelling
GetLockRequest(thread).Deny() through the queue. -/
def queueDenyLockRequest (q : LRQueue) (txn : Nat) : LRQueue :=
  match alookup q.gmap txn with
  | none => q
  | some gid =>
    ⟨updateGroup q.groups gid
        (fun reqs => reqs.map fun p =>
          if p.1 = txn then (p.1, ⟨p.2.mode, true⟩) else p),
      q.gmap⟩

example :
    (queueEmplaceLockRequest (fun a b => a = 1 || b = 1) ⟨[], []⟩ 0 7).2 = 1 := by
  decide

example :
    (queueEmplaceLockRequest (fun a b => a = 1 || b = 1)
      ⟨[⟨1, [(7, ⟨0, false⟩)]⟩], [(7, 1)]⟩ 0 8).2 = 1 := by
  decide

example :
    (queueEmplaceLockRequest (fun a b => a = 1 || b = 1)
      ⟨[⟨1, [(7, ⟨0, false⟩)]⟩], [(7, 1)]⟩ 1 8).2 = 2 := by
  decide

example :
    (queueEmplaceLockRequest (fun a b => a = 1 || b = 1)
      ⟨[⟨1, [(7, ⟨0, false⟩)]⟩], [(7, 1)]⟩ 1 7).2 = 0 := by
  decide

/-- The dependency graph of dependency_graph.hpp: an adjacency map from a
transaction id to the set of transaction ids it waits for.  The inner
unordered_map of T to bool only ever stores true, so it is modelled by the
list of its keys in insertion order. -/
abbrev DepGraph := List (Nat × List Nat)

/-- The children (direct dependencies) of a node. -/
def childrenOf (g : DepGraph) (n : Nat) : List Nat :=
  (alookup g n).getD []

/-- Edge relation of the dependency graph: a waits for b. -/
def DepEdge (g : DepGraph) (a b : Nat) : Prop :=
  b ∈ childrenOf g a

instance (g : DepGraph) (a b : Nat) : Decidable (DepEdge g a b) :=
  inferInstanceAs (Decidable (b ∈ childrenOf g a))

/-- DependencyGraph Add: dependency_map[a][b] = true, creating the adjacency
entry on demand; idempotent. -/
def gAdd (g : DepGraph) (a b : Nat) : DepGraph :=
  match alookup g a with
  | none => aset g a [b]
  | some l => aset g a (if b ∈ l then l else l ++ [b])

/-- DependencyGraph Remove of an edge: erase b from the adjacency entry of a
when present, dropping the entry when it empties; idempotent. -/
def gRemove (g : DepGraph) (a b : Nat) : DepGraph :=
  match alookup g a with
  | none => g
  | some l =>
    let l2 := l.erase b
    if l2.isEmpty then aerase g a else aset g a l2

/-- The intermediate result of the recursive DetectCycle walk: the node a
cycle was observed on (if any), the parents map and the visited map. -/
structure DfsRes where
  found : Option Nat
  parents : List (Nat × Nat)
  visited : List (Nat × Bool)
  deriving DecidableEq, Repr

/-- The child loop shared by both private DetectCycle overloads: run the
step on each child in order, stopping at the first that observes a cycle and
threading the parents and visited maps through. -/
def dfsKidsWith
    (step : Nat → List (Nat × Nat) → List (Nat × Bool) → Option DfsRes) :
    List Nat → List (Nat × Nat) → List (Nat × Bool) → Option DfsRes
  | [], parents, visited => some ⟨none, parents, visited⟩
  | c :: cs, parents, visited =>
    match step c parents visited with
    | none => none
    | some res =>
      match res.found with
      | some n => some ⟨some n, res.parents, res.visited⟩
      | none => dfsKidsWith step cs res.parents res.visited

/-- The four-argument private DetectCycle of dependency_graph.hpp: record the
parent of the node, return no-cycle if the node is completely visited,
report a cycle if it is in progress, and otherwise mark it in progress,
recurse into its children, and mark it completely visited when no cycle was
observed.  The extra fuel argument bounds the recursion depth; the source
recursion always terminates, which is proved separately. -/
def dfsVisit (g : DepGraph) :
    Nat → Nat → Nat → List (Nat × Nat) → List (Nat × Bool) → Option DfsRes
  | 0, _, _, _, _ => none
  | fuel + 1, node, parent, parents, visited =>
    let parents2 := aset parents node parent
    match alookup visited node with
    | some true => some ⟨none, parents2, visited⟩
    | some false => some ⟨some node, parents2, visited⟩
    | none =>
      match dfsKidsWith (fun c ps vs => dfsVisit g fuel c node ps vs)
          (childrenOf g node) parents2 (aset visited node false) with
      | none => none
      | some res =>
        match res.found with
        | some n => some ⟨some n, res.parents, res.visited⟩
        | none => some ⟨none, res.parents, aset res.visited node true⟩

/-- The three-argument private DetectCycle applied at the origin: mark the
origin in progress, recurse into its children, and mark it completely
visited when no cycle was observed. -/
def dfsRoot (g : DepGraph) (fuel origin : Nat) : Option DfsRes :=
  match dfsKidsWith (fun c ps vs => dfsVisit g fuel c origin ps vs)
      (childrenOf g origin) [] (aset [] origin false) with
  | none => none
  | some res =>
    match res.found with
    | some n => some ⟨some n, res.parents, res.visited⟩
    | none => some ⟨none, res.parents, aset res.visited origin true⟩

/-- Insert into the cycle node set, modelling std::set insert. -/
def insertSet (l : List Nat) (x : Nat) : List Nat :=
  if x ∈ l then l else l ++ [x]

/-- The cycle-set reconstruction loop of the public DetectCycle: walk the
parents map from the discovered node until it loops back, inserting every
node passed; a missing parents binding raises in the source, modelled by
none.  The fuel bounds the walk, which is proved sufficient separately. -/
def buildCycleLoop :
    Nat → List (Nat × Nat) → Nat → Nat → List Nat → Option (List Nat)
  | 0, _, _, _, _ => none
  | fuel + 1, parents, n, node, acc =>
    if node = n then some acc
    else
      match alookup parents node with
      | none => none
      | some nx => buildCycleLoop fuel parents n nx (insertSet acc node)

/-- The public DetectCycle of the callback revision: run the walk from the
origin; on success reconstruct the cycle node set and invoke the handler
with it, returning whether a cycle was observed.  The second component is
the set handed to the cycle handler (none when the handler is not
invoked). -/
def detectCycleCb (g : DepGraph) (fuel origin : Nat) :
    Option (Bool × Option (List Nat)) :=
  match dfsRoot g fuel origin with
  | none => none
  | some res =>
    match res.found with
    | none => some (false, none)
    | some n =>
      match alookup res.parents n with
      | none => none
      | some first =>
        match buildCycleLoop fuel res.parents n first [n] with
        | none => none
        | some ids => some (true, some ids)

/-- SelectMaxPolicy of recovery_policy.hpp, run as one object: operator()
walks the set keeping an iterator to the largest element seen, and Get
dereferences that iterator.  On an empty set the iterator stays at end and
Get would dereference it, which is undefined; modelled by none. -/
def selectMaxPolicyRun (ids : List Nat) : Option Nat :=
  match ids with
  | [] => none
  | x :: xs => some (xs.foldl (fun acc y => if acc < y then y else acc) x)

/-- A lock table entry of generic_mutex.hpp: the request queue and the
granted group id, which starts at 1. -/
structure LockTableEntry where
  queue : LRQueue
  granted_group_id : Nat
  deriving DecidableEq, Repr

/-- The state of a GenericMutex: the lock table and the dependency graph.
The latch and the condition variables serialize and schedule the atomic
sections modelled below and carry no further state. -/
structure MState where
  table : List (Nat × LockTableEntry)
  graph : DepGraph
  deriving DecidableEq, Repr

/-- Add the edges txn waits-for r for every member r of a group, modelling
the inner loop of InsertDependency over a prior group. -/
def addTxnEdges (graph : DepGraph) (txn : Nat) (reqs : GroupReqs) : DepGraph :=
  reqs.foldl (fun gr p => gAdd gr txn p.1) graph

/-- Add the edges r waits-for txn for every member r of a group, modelling
the inner loop of InsertDependency over a later group. -/
def addRevEdges (graph : DepGraph) (txn : Nat) (reqs : GroupReqs) : DepGraph :=
  reqs.foldl (fun gr p => gAdd gr p.1 txn) graph

/-- Remove the edges txn waits-for r for every member r of a group, from the
first loop of RemoveDependency. -/
def remTxnEdges (graph : DepGraph) (txn : Nat) (reqs : GroupReqs) : DepGraph :=
  reqs.foldl (fun gr p => gRemove gr txn p.1) graph

/-- Remove the edges r waits-for txn for every member r of a group, from the
second loop of RemoveDependency. -/
def remRevEdges (graph : DepGraph) (txn : Nat) (reqs : GroupReqs) : DepGraph :=
  reqs.foldl (fun gr p => gRemove gr p.1 txn) graph

/-- The first loop of InsertDependency: iterate from the front of the queue
up to (excluding) the group of the thread, adding waits-for edges, and
advance the iterator each pass; the loop then stops at the group of the
thread and the following increment leaves the iterator on the rest of the
queue.  Running off the end dereferences the end iterator in the source,
modelled by none. -/
def insDepBeforeLoop (txn gid : Nat) :
    List GroupNode → DepGraph → Option (DepGraph × List GroupNode)
  | [], _ => none
  | g :: rest, graph =>
    if g.key = gid then some (graph, rest)
    else insDepBeforeLoop txn gid rest (addTxnEdges graph txn g.val)

/-- The second loop of InsertDependency: while the iterator has not reached
the end, add awaited-by edges for the members of the current group.  The
source loop body never advances the iterator, so the loop only exits when it
starts at the end; the fuel exposes this, with none meaning the loop is
still running when the fuel runs out. -/
def insDepAfterLoop (txn : Nat) :
    Nat → List GroupNode → DepGraph → Option DepGraph
  | _, [], graph => some graph
  | 0, _ :: _, _ => none
  | fuel + 1, g :: rest, graph =>
    insDepAfterLoop txn fuel (g :: rest) (addRevEdges graph txn g.val)

/-- InsertDependency of generic_mutex.hpp. -/
def insertDependency (fuel : Nat) (q : LRQueue) (txn : Nat)
    (graph : DepGraph) : Option DepGraph :=
  (alookup q.gmap txn).bind fun gid =>
    (insDepBeforeLoop txn gid q.groups graph).bind fun r =>
      insDepAfterLoop txn fuel r.2 r.1

/-- The first loop of RemoveDependency: while the current group is not the
group of the thread, remove waits-for edges for its members.  The source
loop body never advances the iterator, so the group under the iterator
never changes; the fuel exposes this.  An empty queue dereferences the end
iterator in the loop condition, modelled by none. -/
def remDepBeforeLoop (txn gid : Nat) :
    Nat → List GroupNode → DepGraph → Option (DepGraph × List GroupNode)
  | _, [], _ => none
  | 0, g :: rest, graph => if g.key = gid then some (graph, rest) else none
  | fuel + 1, g :: rest, graph =>
    if g.key = gid then some (graph, rest)
    else remDepBeforeLoop txn gid fuel (g :: rest) (remTxnEdges graph txn g.val)

/-- The second loop of RemoveDependency: while the iterator has not reached
the end, remove awaited-by edges for the members of the current group.  As
in the source, the body never advances the iterator. -/
def remDepAfterLoop (txn : Nat) :
    Nat → List GroupNode → DepGraph → Option DepGraph
  | _, [], graph => some graph
  | 0, _ :: _, _ => none
  | fuel + 1, g :: rest, graph =>
    remDepAfterLoop txn fuel (g :: rest) (remRevEdges graph txn g.val)

/-- RemoveDependency of generic_mutex.hpp. -/
def removeDependency (fuel : Nat) (q : LRQueue) (txn : Nat)
    (graph : DepGraph) : Option DepGraph :=
  (alookup q.gmap txn).bind fun gid =>
    (remDepBeforeLoop txn gid fuel q.groups graph).bind fun r =>
      remDepAfterLoop txn fuel r.2 r.1

/-- The default-constructed lock table entry: empty queue, granted group id
1. -/
def defaultEntry : LockTableEntry := ⟨⟨[], []⟩, 1⟩

/-- Outcome of the first latched section of Lock. -/
inductive LockOutcome where
  | rejected
  | granted
  | waiting
  deriving DecidableEq, Repr

/-- The first latched section of Lock in generic_mutex.hpp: create the table
entry on demand, emplace the request, return false on the null group id,
return true when the request joined the granted group, and otherwise insert
the dependency edges and move to waiting on the condition variable. -/
def lockAcquireStep (M : Nat → Nat → Bool) (fuel : Nat) (s : MState)
    (r txn mode : Nat) : Option (MState × LockOutcome) :=
  let entry := (alookup s.table r).getD defaultEntry
  let er := queueEmplaceLockRequest M entry.queue mode txn
  if er.2 = null_group_id then
    some (⟨aset s.table r ⟨er.1, entry.granted_group_id⟩, s.graph⟩,
      LockOutcome.rejected)
  else if er.2 = entry.granted_group_id then
    some (⟨aset s.table r ⟨er.1, entry.granted_group_id⟩, s.graph⟩,
      LockOutcome.granted)
  else
    (insertDependency fuel er.1 txn s.graph).map fun graph2 =>
      (⟨aset s.table r ⟨er.1, entry.granted_group_id⟩, graph2⟩,
        LockOutcome.waiting)

/-- The latched section of Lock that runs when the wait ends: if the request
was denied, remove the dependency edges of the thread over this queue,
remove the request from the queue, and return false; otherwise return true.
The table entry is not erased on this path even when the queue empties. -/
def lockWakeStep (fuel : Nat) (s : MState) (r txn : Nat) :
    Option (MState × Bool) :=
  (alookup s.table r).bind fun entry =>
    (queueGetLockRequest entry.queue txn).bind fun req =>
      if req.denied then
        (removeDependency fuel entry.queue txn s.graph).bind fun graph2 =>
          (queueRemoveLockRequest entry.queue txn).map fun q2 =>
            (⟨aset s.table r ⟨q2, entry.granted_group_id⟩, graph2⟩, false)
      else some (s, true)

/-- Unlock of generic_mutex.hpp: silently return when the record has no
entry, the thread has no request, or the request is not in the granted
group; otherwise remove the dependencies and the request, erase the entry
when the queue empties, and else advance the granted group id to the front
group id when it moved, notifying all waiters (the returned flag). -/
def unlockStep (fuel : Nat) (s : MState) (r txn : Nat) :
    Option (MState × Bool) :=
  match alookup s.table r with
  | none => some (s, false)
  | some entry =>
    if queueLockRequestExists entry.queue txn then
      match queueGetGroupId entry.queue txn with
      | none => none
      | some gid =>
        if gid = entry.granted_group_id then
          (removeDependency fuel entry.queue txn s.graph).bind fun graph2 =>
            (queueRemoveLockRequest entry.queue txn).bind fun q2 =>
              if q2.groups.isEmpty then
                some (⟨aerase s.table r, graph2⟩, false)
              else
                match q2.groups.head? with
                | none => none
                | some front =>
                  if front.key ≠ entry.granted_group_id then
                    some (⟨aset s.table r ⟨q2, front.key⟩, graph2⟩, true)
                  else
                    some (⟨aset s.table r ⟨q2, entry.granted_group_id⟩,
                      graph2⟩, false)
        else some (s, false)
    else some (s, false)

/-- The lock table scan of DeadlockCheck: find the first entry holding a
request of the victim outside its granted group, set the denied flag of that
request, and note the record whose waiters are notified.  The source breaks
out of the scan after the first denial. -/
def denyFirstWaiting :
    List (Nat × LockTableEntry) → Nat →
      List (Nat × LockTableEntry) × Option Nat
  | [], _ => ([], none)
  | (rid, e) :: rest, victim =>
    if queueLockRequestExists e.queue victim then
      if (queueGetGroupId e.queue victim).getD e.granted_group_id
          ≠ e.granted_group_id then
        ((rid, ⟨queueDenyLockRequest e.queue victim, e.granted_group_id⟩)
            :: rest, some rid)
      else
        let r := denyFirstWaiting rest victim
        ((rid, e) :: r.1, r.2)
    else
      let r := denyFirstWaiting rest victim
      ((rid, e) :: r.1, r.2)

/-- DeadlockCheck of generic_mutex.hpp.  Notes on two slips in the source:
the expression table.at(record_id).entry.queue is read as table.at(record_id)
followed by .queue, the only well-typed reading since the lock table maps
record ids directly to entries.  More importantly, the policy object is
passed to DetectCycle by value (the CycleHandler template parameter is a
value parameter), so the selection the callback stores lands in a copy that
is destroyed when DetectCycle returns; the subsequent policy.Get()
dereferences the default-constructed (singular) iterator of the original
policy object, which is undefined behaviour, modelled by none.  The scan and
denial code that would follow a defined selection is kept as
denyFirstWaiting above. -/
def deadlockCheck (fuel : Nat) (s : MState) (r txn : Nat) :
    Option (MState × Option Nat) :=
  (alookup s.table r).bind fun entry =>
    (queueGetLockRequest entry.queue txn).bind fun req =>
      if req.denied then some (s, none)
      else
        (detectCycleCb s.graph fuel txn).bind fun dc =>
          if dc.1 then
            (none : Option Nat).bind fun victim =>
              some (⟨(denyFirstWaiting s.table victim).1, s.graph⟩,
                (denyFirstWaiting s.table victim).2)
          else some (s, none)

/-- One atomic latched section of the GenericMutex: the acquire section of
Lock, the wake section of Lock, Unlock, or the deadlock probe run from the
timed wait. -/
inductive MStep (M : Nat → Nat → Bool) : MState → MState → Prop
  | lock (r txn mode fuel : Nat) (s s2 : MState) (out : LockOutcome)
      (h : lockAcquireStep M fuel s r txn mode = some (s2, out)) :
      MStep M s s2
  | wake (r txn fuel : Nat) (s s2 : MState) (b : Bool)
      (h : lockWakeStep fuel s r txn = some (s2, b)) : MStep M s s2
  | unlock (r txn fuel : Nat) (s s2 : MState) (b : Bool)
      (h : unlockStep fuel s r txn = some (s2, b)) : MStep M s s2
  | probe (r txn fuel : Nat) (s s2 : MState) (n : Option Nat)
      (h : deadlockCheck fuel s r txn = some (s2, n)) : MStep M s s2

/-- The empty initial state of a freshly constructed GenericMutex. -/
def initialMState : MState := ⟨[], []⟩

/-- States reachable from the initial state by completed latched sections. -/
def ReachableM (M : Nat → Nat → Bool) (s : MState) : Prop :=
  Relation.ReflTransGen (MStep M) initialMState s

example :
    (lockAcquireStep (fun a b => a = 1 || b = 1) 4 initialMState 0 7 0).map
      Prod.snd = some LockOutcome.granted := by
  decide

example :
    detectCycleCb [(1, [2]), (2, [1])] 8 1 = some (true, some [1, 2]) := by
  decide

example :
    detectCycleCb [(1, [2]), (2, [3])] 8 1 = some (false, none) := by
  decide

theorem aset_of_alookup_eq {β : Type} (m : List (Nat × β)) (k : Nat) (v : β)
    (h : alookup m k = some v) : aset m k v = m := by
  induction m with
  | nil => simp [alookup] at h
  | cons p rest ih =>
    obtain ⟨a, b⟩ := p
    by_cases ha : a = k
    · subst ha
      simp [alookup] at h
      simp [aset, h]
    · simp [alookup, ha] at h
      simp [aset, ha, ih h]

theorem remDepBeforeLoop_stuck (txn gid : Nat) (g : GroupNode)
    (rest : List GroupNode) (h : g.key ≠ gid) :
    ∀ fuel graph, remDepBeforeLoop txn gid fuel (g :: rest) graph = none := by
  intro fuel
  induction fuel with
  | zero => intro graph; simp [remDepBeforeLoop, h]
  | succ n ih => intro graph; simp [remDepBeforeLoop, h, ih]

theorem remDepBeforeLoop_front (txn gid : Nat) (g : GroupNode)
    (rest : List GroupNode) (h : g.key = gid) :
    ∀ fuel graph, remDepBeforeLoop txn gid fuel (g :: rest) graph =
      some (graph, rest) := by
  intro fuel graph
  cases fuel with
  | zero => simp [remDepBeforeLoop, h]
  | succ n => simp [remDepBeforeLoop, h]

theorem remDepAfterLoop_stuck (txn : Nat) (g : GroupNode)
    (rest : List GroupNode) :
    ∀ fuel graph, remDepAfterLoop txn fuel (g :: rest) graph = none := by
  intro fuel
  induction fuel with
  | zero => intro graph; simp [remDepAfterLoop]
  | succ n ih => intro graph; simp [remDepAfterLoop, ih]

/-- A queue where transaction 1 sits in the second group, behind a group of
transaction 2: the shape of the queue whenever the denied-wake path of Lock
runs RemoveDependency, and of any queue with groups before the group of the
thread. -/
def queueBeforeStuck : LRQueue :=
  ⟨[⟨1, [(2, ⟨1, false⟩)]⟩, ⟨2, [(1, ⟨1, false⟩)]⟩], [(2, 1), (1, 2)]⟩

/-- A queue where transaction 1 holds the front (granted) group and
transaction 2 waits behind: the shape of the queue whenever Unlock of a
granted request with waiters runs RemoveDependency. -/
def queueAfterStuck : LRQueue :=
  ⟨[⟨1, [(1, ⟨1, false⟩)]⟩, ⟨2, [(2, ⟨1, false⟩)]⟩], [(1, 1), (2, 2)]⟩

/-- Claim C4: the dependency cleanup RemoveDependency is claimed to terminate
for every queue shape and to remove both edge directions.  It does not: its
first while loop never advances the group iterator, so it runs forever
whenever a group precedes the group of the thread, and its second while loop
never advances the iterator either, so it runs forever whenever a group
follows the group of the thread.  No amount of fuel makes either call
return. -/
theorem removeDependency_never_returns :
    (∀ fuel graph, removeDependency fuel queueBeforeStuck 1 graph = none) ∧
    (∀ fuel graph, removeDependency fuel queueAfterStuck 1 graph = none) := by
  constructor
  · intro fuel graph
    have h := remDepBeforeLoop_stuck 1 2 ⟨1, [(2, ⟨1, false⟩)]⟩
      [⟨2, [(1, ⟨1, false⟩)]⟩] (by decide) fuel graph
    simp [removeDependency, queueBeforeStuck, alookup] at h ⊢
    simp [h]
  · intro fuel graph
    have h1 := remDepBeforeLoop_front 1 1 ⟨1, [(1, ⟨1, false⟩)]⟩
      [⟨2, [(2, ⟨1, false⟩)]⟩] rfl fuel graph
    have h2 := remDepAfterLoop_stuck 1 ⟨2, [(2, ⟨1, false⟩)]⟩ [] fuel graph
    simp [removeDependency, queueAfterStuck, alookup] at h1 h2 ⊢
    simp [h1, h2]

/-- A mutex state where transaction 1 holds the granted (front) group of
record 0 and transaction 2 waits in the trailing group. -/
def stateUnlockStuck : MState :=
  ⟨[(0, ⟨⟨[⟨1, [(1, ⟨1, false⟩)]⟩, ⟨2, [(2, ⟨1, false⟩)]⟩],
      [(1, 1), (2, 2)]⟩, 1⟩)], [(2, [1])]⟩

/-- Claim C3: Unlock of a granted request with a waiter queued behind is
claimed to remove the request, advance granted_group_id to the new front
group id and notify the waiters.  The call never gets there: it first runs
RemoveDependency, whose second while loop never advances its iterator
because a group follows the group of the unlocking thread, so Unlock never
returns and the granted group id is never advanced. -/
theorem unlock_never_advances_granted :
    ∀ fuel, unlockStep fuel stateUnlockStuck 0 1 = none := by
  intro fuel
  have h1 := remDepBeforeLoop_front 1 1 ⟨1, [(1, ⟨1, false⟩)]⟩
    [⟨2, [(2, ⟨1, false⟩)]⟩] rfl fuel [(2, [1])]
  have h2 := remDepAfterLoop_stuck 1 ⟨2, [(2, ⟨1, false⟩)]⟩ [] fuel [(2, [1])]
  simp [unlockStep, stateUnlockStuck, alookup, queueLockRequestExists,
    queueGetGroupId, removeDependency] at h1 h2 ⊢
  simp [h1, h2]

/-- A mutex state in which the only request left on record 0 is the denied
request of transaction 2 (its group became the front after the earlier
holders left, as the specification intends). -/
def stateDeniedWake : MState :=
  ⟨[(0, ⟨⟨[⟨2, [(2, ⟨1, true⟩)]⟩], [(2, 2)]⟩, 2⟩)], []⟩

/-- Claim C7: the lock table entry is claimed to be erased on every path that
empties its queue.  The denied-wake path of Lock removes the denied request
but never erases the entry: at this input the queue empties and the entry
stays in the table with an empty request queue. -/
theorem lockWake_keeps_empty_entry :
    ∃ s2, lockWakeStep 0 stateDeniedWake 0 2 = some (s2, false) ∧
      alookup s2.table 0 = some ⟨⟨[], []⟩, 2⟩ ∧
      (⟨⟨[], []⟩, 2⟩ : LockTableEntry).queue.groups = [] :=
  ⟨⟨[(0, ⟨⟨[], []⟩, 2⟩)], []⟩, by decide, by decide, rfl⟩

/-- Claim C8: Unlock is a silent no-op when the record has no lock table
entry, when the thread has no request in the queue of the record, or when
the request of the thread is not in the granted group; the state is returned
unchanged and no waiters are notified. -/
theorem unlock_noop_on_nongranted (fuel : Nat) (s : MState) (r txn : Nat)
    (h : alookup s.table r = none ∨
      (∃ e, alookup s.table r = some e ∧
        queueLockRequestExists e.queue txn = false) ∨
      (∃ e gid, alookup s.table r = some e ∧
        queueGetGroupId e.queue txn = some gid ∧
        gid ≠ e.granted_group_id)) :
    unlockStep fuel s r txn = some (s, false) := by
  rcases h with h | ⟨e, he, hex⟩ | ⟨e, gid, he, hg, hne⟩
  · simp [unlockStep, h]
  · simp [unlockStep, he, hex]
  · have hex : queueLockRequestExists e.queue txn = true := by
      simp [queueLockRequestExists, queueGetGroupId] at hg ⊢
      simp [hg]
    simp [unlockStep, he, hex, hg, hne]

/-- A mutex state with a granted holder (transaction 1) and a waiter
(transaction 2) on record 0, used to exercise the waiting-request branch of
Unlock. -/
def stateWaiterNoop : MState :=
  ⟨[(0, ⟨⟨[⟨1, [(1, ⟨1, false⟩)]⟩, ⟨2, [(2, ⟨1, false⟩)]⟩],
      [(1, 1), (2, 2)]⟩, 1⟩)], []⟩

theorem unlock_noop_on_nongranted_witness :
    unlockStep 3 stateWaiterNoop 0 2 = some (stateWaiterNoop, false) :=
  unlock_noop_on_nongranted 3 stateWaiterNoop 0 2
    (Or.inr (Or.inr ⟨⟨⟨[⟨1, [(1, ⟨1, false⟩)]⟩, ⟨2, [(2, ⟨1, false⟩)]⟩],
      [(1, 1), (2, 2)]⟩, 1⟩, 2, by decide, by decide, by decide⟩))

/-- A transaction has a request somewhere in the queue (in some group). -/
def txnInQueue (q : LRQueue) (txn : Nat) : Prop :=
  ∃ gr ∈ q.groups, (alookup gr.val txn).isSome

instance (q : LRQueue) (txn : Nat) : Decidable (txnInQueue q txn) :=
  inferInstanceAs (Decidable (∃ gr ∈ q.groups, (alookup gr.val txn).isSome))

/-- The requested mode agrees with every non-denied member of a group under
the contention matrix: no held mode of a non-denied member contends with
it. -/
def groupCompatible (M : Nat → Nat → Bool) (reqs : GroupReqs)
    (mode : Nat) : Prop :=
  ∀ p ∈ reqs, p.2.denied = false → M p.2.mode mode = false

instance (M : Nat → Nat → Bool) (reqs : GroupReqs) (mode : Nat) :
    Decidable (groupCompatible M reqs mode) :=
  inferInstanceAs
    (Decidable (∀ p ∈ reqs, p.2.denied = false → M p.2.mode mode = false))

/-- Group ids strictly increase along the queue, the queue class
invariant. -/
def groupIdsIncreasing (q : LRQueue) : Prop :=
  List.Chain' (fun a b => a.key < b.key) q.groups

instance (q : LRQueue) : Decidable (groupIdsIncreasing q) :=
  inferInstanceAs
    (Decidable (List.Chain' (fun (a b : GroupNode) => a.key < b.key) q.groups))

theorem chain_key_le_last (l : List GroupNode)
    (hc : List.Chain' (fun a b => a.key < b.key) l) (last : GroupNode)
    (hl : l.getLast? = some last) : ∀ g ∈ l, g.key ≤ last.key := by
  induction l with
  | nil => simp at hl
  | cons a rest ih =>
    cases rest with
    | nil =>
      simp [List.getLast?] at hl
      subst hl
      intro g hg
      simp at hg
      simp [hg]
    | cons b rest2 =>
      have hstep : a.key < b.key := (List.chain'_cons.mp hc).1
      have hc2 : List.Chain' (fun a b => a.key < b.key) (b :: rest2) :=
        (List.chain'_cons.mp hc).2
      have hl2 : (b :: rest2).getLast? = some last := by
        rw [← hl]
        simp [List.getLast?_cons_cons]
      have hb := ih hc2 hl2
      intro g hg
      rcases List.mem_cons.mp hg with hga | hgr
      · subst hga
        have hble := hb b (by simp)
        omega
      · exact hb g hgr

theorem updateGroup_append_fresh (groups : List GroupNode) (gid : Nat)
    (v : GroupReqs) (f : GroupReqs → GroupReqs)
    (h : ∀ g ∈ groups, g.key ≠ gid) :
    updateGroup (groups ++ [⟨gid, v⟩]) gid f = groups ++ [⟨gid, f v⟩] := by
  induction groups with
  | nil => simp [updateGroup]
  | cons a rest ih =>
    have ha : a.key ≠ gid := h a (by simp)
    simp [updateGroup, ha]
    exact ih (fun g hg => h g (by simp [hg]))

theorem emplaceNewRequestGroup_fresh (M : Nat → Nat → Bool) (q : LRQueue)
    (gid mode txn : Nat) (h : ∀ g ∈ q.groups, g.key ≠ gid) :
    emplaceNewRequestGroup M q gid mode txn =
      (⟨q.groups ++ [⟨gid, [(txn, ⟨mode, false⟩)]⟩],
        aset q.gmap txn gid⟩, gid) := by
  have hany : q.groups.any (fun g => g.key = gid) = false := by
    simp only [List.any_eq_false, decide_eq_true_eq]
    exact h
  unfold emplaceNewRequestGroup groupsEmplaceBack
  rw [hany]
  simp only [Bool.false_eq_true, if_false]
  rw [updateGroup_append_fresh q.groups gid [] _ h]
  simp [groupEmplaceLockRequest]

/-- Claim C9: a second Lock call by a transaction that already has an
outstanding request on the record returns the rejected outcome and leaves
the whole state unchanged: no request is added, no group is created, and
the auxiliary map and the dependency graph keep their values.  The source
keys the duplicate check on the auxiliary map; the class invariant that the
map registers exactly the queued requests is taken at the requesting
transaction. -/
theorem lock_rejects_duplicate (M : Nat → Nat → Bool) (fuel : Nat)
    (s : MState) (r txn mode : Nat) (e : LockTableEntry)
    (he : alookup s.table r = some e)
    (hmem : txnInQueue e.queue txn)
    (hmap : (alookup e.queue.gmap txn).isSome) :
    lockAcquireStep M fuel s r txn mode = some (s, LockOutcome.rejected) := by
  obtain ⟨gr, hgr, hreq⟩ := hmem
  have hne : e.queue.groups ≠ [] := List.ne_nil_of_mem hgr
  have hlast : (e.queue.groups.getLast?).isSome := by
    rw [List.getLast?_isSome]
    exact hne
  obtain ⟨last, hl⟩ := Option.isSome_iff_exists.mp hlast
  have hemp : queueEmplaceLockRequest M e.queue mode txn =
      (e.queue, null_group_id) := by
    unfold queueEmplaceLockRequest
    rw [hl]
    simp [hmap]
  have hset : aset s.table r ⟨e.queue, e.granted_group_id⟩ = s.table :=
    aset_of_alookup_eq s.table r e he
  simp [lockAcquireStep, he, hemp, null_group_id, hset]

theorem lock_rejects_duplicate_witness :
    lockAcquireStep (fun a b => a = 1 || b = 1) 2 stateWaiterNoop 0 2 0 =
      some (stateWaiterNoop, LockOutcome.rejected) :=
  lock_rejects_duplicate (fun a b => a = 1 || b = 1) 2 stateWaiterNoop 0 2 0
    ⟨⟨[⟨1, [(1, ⟨1, false⟩)]⟩, ⟨2, [(2, ⟨1, false⟩)]⟩],
      [(1, 1), (2, 2)]⟩, 1⟩ (by decide) (by decide) (by decide)

theorem alookup_isSome_of_mem {β : Type} (m : List (Nat × β)) (p : Nat × β)
    (hp : p ∈ m) : (alookup m p.1).isSome := by
  induction m with
  | nil => simp at hp
  | cons a rest ih =>
    obtain ⟨k, v⟩ := a
    by_cases hk : k = p.1
    · simp [alookup, hk]
    · have hpr : p ∈ rest := by
        rcases List.mem_cons.mp hp with h | h
        · exact absurd (congrArg Prod.fst h.symm) hk
        · exact h
      simp [alookup, hk, ih hpr]

theorem emplaceNewRequestGroup_gmap (M : Nat → Nat → Bool) (q : LRQueue)
    (gid mode txn : Nat) :
    alookup (emplaceNewRequestGroup M q gid mode txn).1.gmap txn =
      some (emplaceNewRequestGroup M q gid mode txn).2 := by
  unfold emplaceNewRequestGroup
  simp [alookup_aset_self]

theorem getLast_mem_of_getLast? (l : List GroupNode) (last : GroupNode)
    (hl : l.getLast? = some last) : last ∈ l := by
  induction l with
  | nil => simp at hl
  | cons a rest ih =>
    cases rest with
    | nil =>
      simp [List.getLast?] at hl
      simp [hl]
    | cons b rest2 =>
      have hl2 : (b :: rest2).getLast? = some last := by
        rw [← hl]
        simp [List.getLast?_cons_cons]
      exact List.mem_cons.mpr (Or.inr (ih hl2))

/-- Claim C1: the queue admission algorithm.  An empty queue creates the
first group with id 1 holding the request; a transaction already present
anywhere in the queue gets the null group id 0 back with the queue
unchanged; otherwise the request joins the last group exactly when its mode
agrees with every non-denied request there, and on contention a new
trailing group with the successor of the last group id is created; in every
non-null case the auxiliary map afterwards binds the transaction to the
returned group id.  The hypotheses are the queue class invariants:
strictly increasing group ids and, at the requesting transaction, agreement
of the auxiliary map with queue membership. -/
theorem queueEmplace_spec (M : Nat → Nat → Bool) (q : LRQueue)
    (mode txn : Nat) (hinc : groupIdsIncreasing q)
    (hct : (alookup q.gmap txn).isSome ↔ txnInQueue q txn) :
    (q.groups = [] →
      queueEmplaceLockRequest M q mode txn =
        (⟨[⟨1, [(txn, ⟨mode, false⟩)]⟩], aset q.gmap txn 1⟩, 1)) ∧
    (txnInQueue q txn →
      queueEmplaceLockRequest M q mode txn = (q, null_group_id)) ∧
    (∀ last, q.groups.getLast? = some last → ¬ txnInQueue q txn →
      (groupCompatible M last.val mode →
        queueEmplaceLockRequest M q mode txn =
          (⟨q.groups.dropLast ++
              [⟨last.key, last.val ++ [(txn, ⟨mode, false⟩)]⟩],
            aset q.gmap txn last.key⟩, last.key)) ∧
      (¬ groupCompatible M last.val mode →
        queueEmplaceLockRequest M q mode txn =
          (⟨q.groups ++ [⟨last.key + 1, [(txn, ⟨mode, false⟩)]⟩],
            aset q.gmap txn (last.key + 1)⟩, last.key + 1))) ∧
    (∀ q2 gid, queueEmplaceLockRequest M q mode txn = (q2, gid) →
      gid ≠ null_group_id → alookup q2.gmap txn = some gid) := by
  have hempty : q.groups = [] →
      queueEmplaceLockRequest M q mode txn =
        (⟨[⟨1, [(txn, ⟨mode, false⟩)]⟩], aset q.gmap txn 1⟩, 1) := by
    intro hq
    have hfresh : ∀ g ∈ q.groups, g.key ≠ 1 := by
      rw [hq]
      simp
    have h1 := emplaceNewRequestGroup_fresh M q 1 mode txn hfresh
    unfold queueEmplaceLockRequest
    rw [hq]
    simp only [List.getLast?]
    rw [show null_group_id + 1 = 1 from rfl, h1, hq]
    simp
  have hdup : txnInQueue q txn →
      queueEmplaceLockRequest M q mode txn = (q, null_group_id) := by
    intro hmem
    obtain ⟨gr, hgr, hreq⟩ := hmem
    have hne : q.groups ≠ [] := List.ne_nil_of_mem hgr
    have hlast : (q.groups.getLast?).isSome := by
      rw [List.getLast?_isSome]
      exact hne
    obtain ⟨last, hl⟩ := Option.isSome_iff_exists.mp hlast
    have hmap : (alookup q.gmap txn).isSome := hct.mpr ⟨gr, hgr, hreq⟩
    unfold queueEmplaceLockRequest
    rw [hl]
    simp [hmap]
  have hfreshcase : ∀ last, q.groups.getLast? = some last →
      ¬ txnInQueue q txn →
      (groupCompatible M last.val mode →
        queueEmplaceLockRequest M q mode txn =
          (⟨q.groups.dropLast ++
              [⟨last.key, last.val ++ [(txn, ⟨mode, false⟩)]⟩],
            aset q.gmap txn last.key⟩, last.key)) ∧
      (¬ groupCompatible M last.val mode →
        queueEmplaceLockRequest M q mode txn =
          (⟨q.groups ++ [⟨last.key + 1, [(txn, ⟨mode, false⟩)]⟩],
            aset q.gmap txn (last.key + 1)⟩, last.key + 1)) := by
    intro last hl hnm
    have hmap : (alookup q.gmap txn).isSome = false := by
      rcases h : (alookup q.gmap txn).isSome with _ | _
      · rfl
      · exact absurd (hct.mp h) hnm
    have hlastmem : last ∈ q.groups := getLast_mem_of_getLast? q.groups last hl
    have hnotin : last.val.any (fun p => p.1 = txn) = false := by
      simp only [List.any_eq_false, decide_eq_true_eq]
      intro p hp hpt
      exact hnm ⟨last, hlastmem, hpt ▸ alookup_isSome_of_mem last.val p hp⟩
    constructor
    · intro hcompat
      have hany : last.val.any (fun p => M p.2.mode mode && !p.2.denied)
          = false := by
        simp only [List.any_eq_false, Bool.and_eq_true, Bool.not_eq_true']
        intro p hp hcontr
        have := hcompat p hp hcontr.2
        simp [this] at hcontr
      have hg : groupEmplaceLockRequest M last.val mode txn =
          some (last.val ++ [(txn, ⟨mode, false⟩)]) := by
        unfold groupEmplaceLockRequest
        rw [hany, hnotin]
        simp
      unfold queueEmplaceLockRequest
      rw [hl]
      simp [hmap, hg]
    · intro hncompat
      have hany : last.val.any (fun p => M p.2.mode mode && !p.2.denied)
          = true := by
        by_contra hc
        apply hncompat
        intro p hp hd
        rcases hMv : M p.2.mode mode with _ | _
        · rfl
        · exfalso
          apply hc
          simp only [List.any_eq_true]
          exact ⟨p, hp, by simp [hMv, hd]⟩
      have hg : groupEmplaceLockRequest M last.val mode txn = none := by
        unfold groupEmplaceLockRequest
        rw [hany]
        simp
      have hfresh : ∀ g ∈ q.groups, g.key ≠ last.key + 1 := by
        intro g hg2
        have := chain_key_le_last q.groups hinc last hl g hg2
        omega
      have h2 := emplaceNewRequestGroup_fresh M q (last.key + 1) mode txn hfresh
      unfold queueEmplaceLockRequest
      rw [hl]
      simp [hmap, hg, h2]
  refine ⟨hempty, hdup, hfreshcase, ?_⟩
  intro q2 gid hrun hnn
  have hlem : ∀ gid0, emplaceNewRequestGroup M q gid0 mode txn = (q2, gid) →
      alookup q2.gmap txn = some gid := by
    intro gid0 h0
    have hg := emplaceNewRequestGroup_gmap M q gid0 mode txn
    rw [h0] at hg
    exact hg
  revert hrun
  unfold queueEmplaceLockRequest
  rcases hq : q.groups.getLast? with _ | last
  · exact fun hrun => hlem _ hrun
  · rcases hmap : (alookup q.gmap txn).isSome with _ | _
    · simp only [hmap, Bool.false_eq_true, if_false]
      rcases hge : groupEmplaceLockRequest M last.val mode txn with _ | g2
      · exact fun hrun => hlem _ hrun
      · intro hrun
        injection hrun with h1 h2
        subst h1
        subst h2
        exact alookup_aset_self q.gmap txn last.key
    · simp only [hmap, if_true]
      intro hrun
      injection hrun with h1 h2
      exact absurd h2.symm hnn

/-- The canonical read-write contention matrix: read is 0, write is 1; a
held write blocks everything and a write request is blocked by
everything. -/
def matrixRW : Nat → Nat → Bool := fun a b => a = 1 || b = 1

/-- A queue holding one granted reader, transaction 7, in group 1. -/
def queueOneReader : LRQueue := ⟨[⟨1, [(7, ⟨0, false⟩)]⟩], [(7, 1)]⟩

theorem queueEmplace_spec_witness :
    queueEmplaceLockRequest matrixRW queueOneReader 1 8 =
      (⟨queueOneReader.groups ++ [⟨2, [(8, ⟨1, false⟩)]⟩],
        aset queueOneReader.gmap 8 2⟩, 2) :=
  ((queueEmplace_spec matrixRW queueOneReader 1 8
      (by simp [groupIdsIncreasing, queueOneReader])
      (by decide)).2.2.1 ⟨1, [(7, ⟨0, false⟩)]⟩ (by decide)
      (by decide)).2 (by decide)

/-- Requests of a group are compatible in admission order: every earlier
member, while not denied, does not contend with any later non-denied
member. -/
def GroupAdmOrderOK (M : Nat → Nat → Bool) (reqs : GroupReqs) : Prop :=
  List.Pairwise (fun a b => a.2.denied = false → b.2.denied = false →
    M a.2.mode b.2.mode = false) reqs

instance (M : Nat → Nat → Bool) (reqs : GroupReqs) :
    Decidable (GroupAdmOrderOK M reqs) :=
  inferInstanceAs
    (Decidable (List.Pairwise (fun (a b : Nat × LockRequest) =>
      a.2.denied = false → b.2.denied = false →
      M a.2.mode b.2.mode = false) reqs))

/-- Every group of every table entry is compatible in admission order. -/
def StateAdmOrderOK (M : Nat → Nat → Bool) (s : MState) : Prop :=
  ∀ re ∈ s.table, ∀ gr ∈ re.2.queue.groups, GroupAdmOrderOK M gr.val

/-- The both-orders compatibility law of the claim: any two distinct
non-denied requests of one group are mutually non-contending in both
directions of the matrix. -/
def StateBothOrdersOK (M : Nat → Nat → Bool) (s : MState) : Prop :=
  ∀ re ∈ s.table, ∀ gr ∈ re.2.queue.groups, ∀ p ∈ gr.val, ∀ p2 ∈ gr.val,
    p.1 ≠ p2.1 → p.2.denied = false → p2.2.denied = false →
    M p.2.mode p2.2.mode = false

theorem mem_of_mem_aerase {β : Type} (m : List (Nat × β)) (k : Nat)
    (x : Nat × β) (h : x ∈ aerase m k) : x ∈ m := by
  induction m with
  | nil => simp [aerase] at h
  | cons a rest ih =>
    obtain ⟨a1, a2⟩ := a
    by_cases hk : a1 = k
    · simp [aerase, hk] at h
      simp [h]
    · simp [aerase, hk] at h
      rcases h with h | h
      · simp [h]
      · exact List.mem_cons.mpr (Or.inr (ih h))

theorem mem_of_mem_aset {β : Type} (m : List (Nat × β)) (k : Nat) (v : β)
    (x : Nat × β) (h : x ∈ aset m k v) : x ∈ m ∨ x = (k, v) := by
  induction m with
  | nil => simp [aset] at h; simp [h]
  | cons a rest ih =>
    obtain ⟨a1, a2⟩ := a
    by_cases hk : a1 = k
    · subst hk
      simp [aset] at h
      rcases h with h | h
      · exact Or.inr (by simp [h])
      · exact Or.inl (List.mem_cons.mpr (Or.inr h))
    · simp [aset, hk] at h
      rcases h with h | h
      · exact Or.inl (by simp [h])
      · rcases ih h with h2 | h2
        · exact Or.inl (List.mem_cons.mpr (Or.inr h2))
        · exact Or.inr h2

theorem mem_of_mem_eraseGroup (groups : List GroupNode) (gid : Nat)
    (g : GroupNode) (h : g ∈ eraseGroup groups gid) : g ∈ groups := by
  induction groups with
  | nil => simp [eraseGroup] at h
  | cons a rest ih =>
    by_cases hk : a.key = gid
    · simp [eraseGroup, hk] at h
      simp [h]
    · simp [eraseGroup, hk] at h
      rcases h with h | h
      · simp [h]
      · exact List.mem_cons.mpr (Or.inr (ih h))

theorem mem_updateGroup (groups : List GroupNode) (gid : Nat)
    (f : GroupReqs → GroupReqs) (g : GroupNode)
    (h : g ∈ updateGroup groups gid f) :
    g ∈ groups ∨ ∃ g0 ∈ groups, g = ⟨g0.key, f g0.val⟩ := by
  induction groups with
  | nil => simp [updateGroup] at h
  | cons a rest ih =>
    by_cases hk : a.key = gid
    · simp [updateGroup, hk] at h
      rcases h with h | h
      · exact Or.inr ⟨a, by simp, by rw [hk]; exact h⟩
      · exact Or.inl (List.mem_cons.mpr (Or.inr h))
    · simp [updateGroup, hk] at h
      rcases h with h | h
      · exact Or.inl (by simp [h])
      · rcases ih h with h2 | ⟨g0, hg0, hge⟩
        · exact Or.inl (List.mem_cons.mpr (Or.inr h2))
        · exact Or.inr ⟨g0, List.mem_cons.mpr (Or.inr hg0), hge⟩

theorem aerase_sublist {β : Type} (m : List (Nat × β)) (k : Nat) :
    (aerase m k).Sublist m := by
  induction m with
  | nil => simp [aerase]
  | cons a rest ih =>
    obtain ⟨a1, a2⟩ := a
    by_cases hk : a1 = k
    · simp [aerase, hk]
    · simp [aerase, hk]
      exact ih

theorem groupAdmOrder_aerase (M : Nat → Nat → Bool) (reqs : GroupReqs)
    (k : Nat) (h : GroupAdmOrderOK M reqs) :
    GroupAdmOrderOK M (aerase reqs k) :=
  List.Pairwise.sublist (aerase_sublist reqs k) h

theorem groupEmplace_admOrder (M : Nat → Nat → Bool) (reqs : GroupReqs)
    (mode txn : Nat) (h : GroupAdmOrderOK M reqs) :
    GroupAdmOrderOK M ((groupEmplaceLockRequest M reqs mode txn).getD reqs) := by
  unfold groupEmplaceLockRequest
  rcases h1 : reqs.any (fun p => M p.2.mode mode && !p.2.denied) with _ | _
  · rcases h2 : reqs.any (fun p => p.1 = txn) with _ | _
    · simp only [Bool.false_eq_true, if_false, Option.getD_some]
      unfold GroupAdmOrderOK
      rw [List.pairwise_append]
      refine ⟨h, List.pairwise_singleton _ _, ?_⟩
      intro a ha b hb
      simp only [List.mem_singleton] at hb
      subst hb
      intro hda _
      have := List.any_eq_false.mp h1 a ha
      simp only [Bool.and_eq_true, Bool.not_eq_true'] at this
      rcases hm : M a.2.mode mode with _ | _
      · rfl
      · exact absurd ⟨hm, hda⟩ this
    · simp [h]
  · simp [h]

theorem findGroupReqs_mem (groups : List GroupNode) (gid : Nat)
    (reqs : GroupReqs) (h : findGroupReqs groups gid = some reqs) :
    ∃ g ∈ groups, g.val = reqs := by
  induction groups with
  | nil => simp [findGroupReqs] at h
  | cons a rest ih =>
    by_cases hk : a.key = gid
    · simp [findGroupReqs, hk] at h
      exact ⟨a, by simp, h⟩
    · simp [findGroupReqs, hk] at h
      obtain ⟨g, hg, hge⟩ := ih h
      exact ⟨g, List.mem_cons.mpr (Or.inr hg), hge⟩

theorem queueRemove_admOrder (M : Nat → Nat → Bool) (q : LRQueue)
    (txn : Nat) (q2 : LRQueue) (h : queueRemoveLockRequest q txn = some q2)
    (hq : ∀ gr ∈ q.groups, GroupAdmOrderOK M gr.val) :
    ∀ gr ∈ q2.groups, GroupAdmOrderOK M gr.val := by
  unfold queueRemoveLockRequest at h
  rcases hm : alookup q.gmap txn with _ | gid
  · simp [hm] at h
  · rw [hm] at h
    simp only [Option.some_bind] at h
    rcases hf : findGroupReqs q.groups gid with _ | reqs
    · simp [hf] at h
    · rw [hf] at h
      simp only [Option.some_bind] at h
      rcases his : (alookup reqs txn).isSome with _ | _
      · simp [his] at h
      · simp only [his, if_true] at h
        obtain ⟨g0, hg0, hg0v⟩ := findGroupReqs_mem q.groups gid reqs hf
        have hr : GroupAdmOrderOK M (aerase reqs txn) :=
          groupAdmOrder_aerase M reqs txn (hg0v ▸ hq g0 hg0)
        rcases hemp : (aerase reqs txn).isEmpty with _ | _
        · simp only [hemp, Bool.false_eq_true, if_false] at h
          injection h with h2
          subst h2
          intro gr hgr
          rcases mem_updateGroup q.groups gid _ gr hgr with h3 | ⟨gg, hgg, hge⟩
          · exact hq gr h3
          · subst hge
            exact hr
        · simp only [hemp, if_true] at h
          injection h with h2
          subst h2
          intro gr hgr
          exact hq gr (mem_of_mem_eraseGroup q.groups gid gr hgr)

theorem queueEmplace_admOrder (M : Nat → Nat → Bool) (q : LRQueue)
    (mode txn : Nat) (hq : ∀ gr ∈ q.groups, GroupAdmOrderOK M gr.val) :
    ∀ gr ∈ (queueEmplaceLockRequest M q mode txn).1.groups,
      GroupAdmOrderOK M gr.val := by
  have hnew : ∀ gid, ∀ gr ∈ (emplaceNewRequestGroup M q gid mode txn).1.groups,
      GroupAdmOrderOK M gr.val := by
    intro gid
    unfold emplaceNewRequestGroup groupsEmplaceBack
    rcases hany : q.groups.any (fun g => g.key = gid) with _ | _
    · simp only [Bool.false_eq_true, if_false]
      intro gr hgr
      rcases mem_updateGroup _ gid _ gr hgr with h3 | ⟨gg, hgg, hge⟩
      · rcases List.mem_append.mp h3 with h4 | h4
        · exact hq gr h4
        · simp at h4
          subst h4
          exact List.Pairwise.nil
      · subst hge
        rcases List.mem_append.mp hgg with h4 | h4
        · exact groupEmplace_admOrder M gg.val mode txn (hq gg h4)
        · simp at h4
          subst h4
          exact groupEmplace_admOrder M [] mode txn List.Pairwise.nil
    · simp only [if_true]
      intro gr hgr
      rcases mem_updateGroup _ gid _ gr hgr with h3 | ⟨gg, hgg, hge⟩
      · exact hq gr h3
      · subst hge
        exact groupEmplace_admOrder M gg.val mode txn (hq gg hgg)
  unfold queueEmplaceLockRequest
  rcases hl : q.groups.getLast? with _ | last
  · exact hnew _
  · rcases hm : (alookup q.gmap txn).isSome with _ | _
    · simp only [hm, Bool.false_eq_true, if_false]
      rcases hge : groupEmplaceLockRequest M last.val mode txn with _ | g2
      · exact hnew _
      · intro gr hgr
        simp only at hgr
        rcases List.mem_append.mp hgr with h4 | h4
        · exact hq gr (List.dropLast_sublist q.groups |>.mem h4)
        · simp at h4
          subst h4
          have hlm : last ∈ q.groups := getLast_mem_of_getLast? q.groups last hl
          have := groupEmplace_admOrder M last.val mode txn (hq last hlm)
          rw [hge] at this
          exact this
    · simp only [hm, if_true]
      exact hq

theorem alookup_mem {β : Type} (m : List (Nat × β)) (k : Nat) (v : β)
    (h : alookup m k = some v) : (k, v) ∈ m := by
  induction m with
  | nil => simp [alookup] at h
  | cons a rest ih =>
    obtain ⟨a1, a2⟩ := a
    by_cases hk : a1 = k
    · subst hk
      simp [alookup] at h
      simp [h]
    · simp [alookup, hk] at h
      exact List.mem_cons.mpr (Or.inr (ih h))

theorem lockAcquireStep_table (M : Nat → Nat → Bool) (fuel : Nat)
    (s : MState) (r txn mode : Nat) (s2 : MState) (out : LockOutcome)
    (h : lockAcquireStep M fuel s r txn mode = some (s2, out)) :
    s2.table = aset s.table r
      ⟨(queueEmplaceLockRequest M
          ((alookup s.table r).getD defaultEntry).queue mode txn).1,
        ((alookup s.table r).getD defaultEntry).granted_group_id⟩ := by
  simp only [lockAcquireStep] at h
  split at h
  · have hp := Option.some.inj h
    rw [Prod.mk.injEq] at hp
    rw [← hp.1]
  · split at h
    · have hp := Option.some.inj h
      rw [Prod.mk.injEq] at hp
      rw [← hp.1]
    · rcases hd : insertDependency fuel
          (queueEmplaceLockRequest M
            ((alookup s.table r).getD defaultEntry).queue mode txn).1 txn
          s.graph with _ | g2
      · rw [hd] at h
        simp at h
      · rw [hd] at h
        simp only [Option.map_some'] at h
        have hp := Option.some.inj h
        rw [Prod.mk.injEq] at hp
        rw [← hp.1]

theorem lockWakeStep_table (fuel : Nat) (s : MState) (r txn : Nat)
    (s2 : MState) (b : Bool) (h : lockWakeStep fuel s r txn = some (s2, b)) :
    s2.table = s.table ∨
      ∃ e q2, alookup s.table r = some e ∧
        queueRemoveLockRequest e.queue txn = some q2 ∧
        s2.table = aset s.table r ⟨q2, e.granted_group_id⟩ := by
  unfold lockWakeStep at h
  rcases he : alookup s.table r with _ | e
  · simp [he] at h
  · rw [he] at h
    simp only [Option.some_bind] at h
    rcases hreq : queueGetLockRequest e.queue txn with _ | req
    · simp [hreq] at h
    · rw [hreq] at h
      simp only [Option.some_bind] at h
      rcases hden : req.denied with _ | _
      · rw [hden] at h
        simp only [Bool.false_eq_true, if_false] at h
        have hp := Option.some.inj h
        rw [Prod.mk.injEq] at hp
        rw [← hp.1]
        exact Or.inl rfl
      · rw [hden] at h
        simp only [if_true] at h
        rcases hrd : removeDependency fuel e.queue txn s.graph with _ | g2
        · simp [hrd] at h
        · rw [hrd] at h
          simp only [Option.some_bind] at h
          rcases hqr : queueRemoveLockRequest e.queue txn with _ | q2
          · simp [hqr] at h
          · rw [hqr] at h
            simp only [Option.map_some'] at h
            have hp := Option.some.inj h
            rw [Prod.mk.injEq] at hp
            rw [← hp.1]
            exact Or.inr ⟨e, q2, rfl, hqr, rfl⟩

theorem unlockStep_table (fuel : Nat) (s : MState) (r txn : Nat)
    (s2 : MState) (b : Bool) (h : unlockStep fuel s r txn = some (s2, b)) :
    s2.table = s.table ∨ s2.table = aerase s.table r ∨
      ∃ e q2 gg, alookup s.table r = some e ∧
        queueRemoveLockRequest e.queue txn = some q2 ∧
        s2.table = aset s.table r ⟨q2, gg⟩ := by
  rcases he : alookup s.table r with _ | e
  · simp only [unlockStep, he] at h
    have hp := Option.some.inj h
    rw [Prod.mk.injEq] at hp
    rw [← hp.1]
    exact Or.inl rfl
  · simp only [unlockStep, he] at h
    rcases hex : queueLockRequestExists e.queue txn with _ | _
    · rw [hex] at h
      simp only [Bool.false_eq_true, if_false] at h
      have hp := Option.some.inj h
      rw [Prod.mk.injEq] at hp
      rw [← hp.1]
      exact Or.inl rfl
    · rw [hex] at h
      simp only [if_true] at h
      rcases hg : queueGetGroupId e.queue txn with _ | gid
      · simp [hg] at h
      · simp only [hg] at h
        by_cases hgid : gid = e.granted_group_id
        · rw [if_pos hgid] at h
          rcases hrd : removeDependency fuel e.queue txn s.graph with _ | g2
          · simp [hrd] at h
          · rw [hrd] at h
            simp only [Option.some_bind] at h
            rcases hqr : queueRemoveLockRequest e.queue txn with _ | q2
            · simp [hqr] at h
            · rw [hqr] at h
              simp only [Option.some_bind] at h
              rcases hql : q2.groups.isEmpty with _ | _
              · rw [hql] at h
                simp only [Bool.false_eq_true, if_false] at h
                rcases hhd : q2.groups.head? with _ | front
                · simp [hhd] at h
                · simp only [hhd] at h
                  by_cases hfr : front.key ≠ e.granted_group_id
                  · rw [if_pos hfr] at h
                    have hp := Option.some.inj h
                    rw [Prod.mk.injEq] at hp
                    rw [← hp.1]
                    exact Or.inr (Or.inr ⟨e, q2, front.key, rfl, hqr, rfl⟩)
                  · rw [if_neg hfr] at h
                    have hp := Option.some.inj h
                    rw [Prod.mk.injEq] at hp
                    rw [← hp.1]
                    exact Or.inr (Or.inr ⟨e, q2, e.granted_group_id, rfl,
                      hqr, rfl⟩)
              · rw [hql] at h
                simp only [if_true] at h
                have hp := Option.some.inj h
                rw [Prod.mk.injEq] at hp
                rw [← hp.1]
                exact Or.inr (Or.inl rfl)
        · rw [if_neg hgid] at h
          have hp := Option.some.inj h
          rw [Prod.mk.injEq] at hp
          rw [← hp.1]
          exact Or.inl rfl

theorem deadlockCheck_state (fuel : Nat) (s : MState) (r txn : Nat)
    (s2 : MState) (n : Option Nat)
    (h : deadlockCheck fuel s r txn = some (s2, n)) : s2 = s := by
  unfold deadlockCheck at h
  rcases he : alookup s.table r with _ | e
  · simp [he] at h
  · rw [he] at h
    simp only [Option.some_bind] at h
    rcases hreq : queueGetLockRequest e.queue txn with _ | req
    · simp [hreq] at h
    · rw [hreq] at h
      simp only [Option.some_bind] at h
      rcases hden : req.denied with _ | _
      · rw [hden] at h
        simp only [Bool.false_eq_true, if_false] at h
        rcases hdc : detectCycleCb s.graph fuel txn with _ | dc
        · simp [hdc] at h
        · rw [hdc] at h
          simp only [Option.some_bind] at h
          rcases hb : dc.1 with _ | _
          · rw [hb] at h
            simp only [Bool.false_eq_true, if_false] at h
            have hp := Option.some.inj h
            rw [Prod.mk.injEq] at hp
            exact hp.1.symm
          · rw [hb] at h
            simp at h
      · rw [hden] at h
        simp only [if_true] at h
        have hp := Option.some.inj h
        rw [Prod.mk.injEq] at hp
        exact hp.1.symm

theorem mstep_admOrder (M : Nat → Nat → Bool) (s s2 : MState)
    (hs : MStep M s s2) (h : StateAdmOrderOK M s) : StateAdmOrderOK M s2 := by
  cases hs with
  | lock r txn mode fuel sA sB out heq =>
    have ht := lockAcquireStep_table M fuel s r txn mode s2 out heq
    intro re hre
    rw [ht] at hre
    rcases mem_of_mem_aset _ _ _ re hre with h1 | h1
    · exact h re h1
    · subst h1
      intro gr hgr
      refine queueEmplace_admOrder M
        ((alookup s.table r).getD defaultEntry).queue mode txn ?_ gr hgr
      rcases he : alookup s.table r with _ | e
      · intro g0 hg0
        simp [defaultEntry] at hg0
      · exact fun g0 hg0 => h (r, e) (alookup_mem s.table r e he) g0 hg0
  | wake r txn fuel sA sB b heq =>
    have ht := lockWakeStep_table fuel s r txn s2 b heq
    rcases ht with ht | ⟨e, q2, he, hqr, ht⟩
    · intro re hre
      rw [ht] at hre
      exact h re hre
    · intro re hre
      rw [ht] at hre
      rcases mem_of_mem_aset _ _ _ re hre with h1 | h1
      · exact h re h1
      · subst h1
        exact fun gr hgr => queueRemove_admOrder M e.queue txn q2 hqr
          (fun g0 hg0 => h (r, e) (alookup_mem s.table r e he) g0 hg0) gr hgr
  | unlock r txn fuel sA sB b heq =>
    have ht := unlockStep_table fuel s r txn s2 b heq
    rcases ht with ht | ht | ⟨e, q2, gg, he, hqr, ht⟩
    · intro re hre
      rw [ht] at hre
      exact h re hre
    · intro re hre
      rw [ht] at hre
      exact h re (mem_of_mem_aerase _ _ _ hre)
    · intro re hre
      rw [ht] at hre
      rcases mem_of_mem_aset _ _ _ re hre with h1 | h1
      · exact h re h1
      · subst h1
        exact fun gr hgr => queueRemove_admOrder M e.queue txn q2 hqr
          (fun g0 hg0 => h (r, e) (alookup_mem s.table r e he) g0 hg0) gr hgr
  | probe r txn fuel sA sB n heq =>
    have ht := deadlockCheck_state fuel s r txn s2 n heq
    subst ht
    exact h

/-- Claim C2 (amended): in every reachable state, compatibility within a
group holds in admission order: for any two distinct non-denied requests of
one group, the matrix entry indexed by the mode of the earlier-admitted
request and the mode of the later-admitted request is false.  The source
checks contention only against the already-present members at admission
time, so for an asymmetric matrix the reversed entry is not constrained;
for a symmetric matrix this gives the both-orders law of the
specification. -/
theorem reachable_admission_order (M : Nat → Nat → Bool) (s : MState)
    (h : ReachableM M s) : StateAdmOrderOK M s := by
  unfold ReachableM at h
  induction h with
  | refl =>
    intro re hre
    simp [initialMState] at hre
  | tail hab hbc ih => exact mstep_admOrder M _ _ hbc ih

/-- An asymmetric contention matrix: a held mode 1 contends with a
requested mode 0, and nothing else contends. -/
def matrixAsym : Nat → Nat → Bool := fun a b => a = 1 && b = 0

/-- The state after transaction 1 acquires record 0 in mode 0. -/
def stateOneHolder : MState :=
  ⟨[(0, ⟨⟨[⟨1, [(1, ⟨0, false⟩)]⟩], [(1, 1)]⟩, 1⟩)], []⟩

/-- The state after transaction 2 additionally acquires record 0 in mode 1,
joining the granted group. -/
def stateTwoHolders : MState :=
  ⟨[(0, ⟨⟨[⟨1, [(1, ⟨0, false⟩), (2, ⟨1, false⟩)]⟩],
      [(1, 1), (2, 1)]⟩, 1⟩)], []⟩

theorem reachable_admission_order_witness :
    StateAdmOrderOK matrixAsym stateTwoHolders :=
  reachable_admission_order matrixAsym stateTwoHolders
    (Relation.ReflTransGen.head
      (MStep.lock 0 1 0 0 initialMState stateOneHolder LockOutcome.granted
        (by decide))
      (Relation.ReflTransGen.single
        (MStep.lock 0 2 1 0 stateOneHolder stateTwoHolders
          LockOutcome.granted (by decide))))

/-- Claim C2 as stated is false on the code: with the asymmetric matrix
above, transactions 1 (mode 0) and 2 (mode 1) are simultaneously granted in
one group of a reachable state, yet the matrix entry indexed by mode 1 then
mode 0 is true, violating the both-orders reading of the compatibility
law. -/
theorem bothOrders_fails_on_asym_matrix :
    ¬ (∀ s, ReachableM matrixAsym s → StateBothOrdersOK matrixAsym s) := by
  intro hall
  have hreach : ReachableM matrixAsym stateTwoHolders :=
    Relation.ReflTransGen.head
      (MStep.lock 0 1 0 0 initialMState stateOneHolder LockOutcome.granted
        (by decide))
      (Relation.ReflTransGen.single
        (MStep.lock 0 2 1 0 stateOneHolder stateTwoHolders
          LockOutcome.granted (by decide)))
  have hv := hall stateTwoHolders hreach
    (0, ⟨⟨[⟨1, [(1, ⟨0, false⟩), (2, ⟨1, false⟩)]⟩],
      [(1, 1), (2, 1)]⟩, 1⟩) (by decide)
    ⟨1, [(1, ⟨0, false⟩), (2, ⟨1, false⟩)]⟩ (by decide)
    (2, ⟨1, false⟩) (by decide) (1, ⟨0, false⟩) (by decide)
    (by decide) rfl rfl
  simp [matrixAsym] at hv

theorem mem_insertSet (l : List Nat) (x y : Nat) (h : x ∈ l) :
    x ∈ insertSet l y := by
  unfold insertSet
  by_cases hy : y ∈ l
  · simp [hy, h]
  · simp [hy]
    exact Or.inl h

theorem buildCycleLoop_acc_subset (fuel : Nat) :
    ∀ parents n node acc out,
      buildCycleLoop fuel parents n node acc = some out →
      ∀ x ∈ acc, x ∈ out := by
  induction fuel with
  | zero =>
    intro parents n node acc out h
    simp [buildCycleLoop] at h
  | succ k ih =>
    intro parents n node acc out h x hx
    unfold buildCycleLoop at h
    by_cases hn : node = n
    · rw [if_pos hn] at h
      injection h with h2
      subst h2
      exact hx
    · rw [if_neg hn] at h
      rcases hp : alookup parents node with _ | nx
      · simp [hp] at h
      · rw [hp] at h
        exact ih parents n nx _ out h x (mem_insertSet acc x node hx)

/-- Claim C10: whenever the cycle detection reports a cycle, the node set it
constructs and hands to the cycle handler is nonempty (the node the cycle
was closed on is inserted before the handler runs), and SelectMaxPolicy run
on such a set makes a defined selection: it never dereferences the begin
iterator of an empty set. -/
theorem detect_cycle_set_nonempty (g : DepGraph) (fuel origin : Nat)
    (b : Bool) (ids : List Nat)
    (h : detectCycleCb g fuel origin = some (b, some ids)) :
    b = true ∧ ids ≠ [] ∧ (selectMaxPolicyRun ids).isSome := by
  unfold detectCycleCb at h
  rcases hr : dfsRoot g fuel origin with _ | res
  · simp [hr] at h
  · rw [hr] at h
    rcases hf : res.found with _ | n
    · simp only [hf] at h
      have hp := Option.some.inj h
      rw [Prod.mk.injEq] at hp
      exact absurd hp.2 (by simp)
    · simp only [hf] at h
      rcases hpar : alookup res.parents n with _ | first
      · simp [hpar] at h
      · simp only [hpar] at h
        rcases hbl : buildCycleLoop fuel res.parents n first [n] with _ | out
        · simp [hbl] at h
        · simp only [hbl] at h
          have hp := Option.some.inj h
          rw [Prod.mk.injEq] at hp
          obtain ⟨hb, hids⟩ := hp
          have hids2 := Option.some.inj hids
          subst hids2
          have hmem : n ∈ out :=
            buildCycleLoop_acc_subset fuel res.parents n first [n] out hbl n
              (by simp)
          refine ⟨hb.symm, List.ne_nil_of_mem hmem, ?_⟩
          rcases out with _ | ⟨x, xs⟩
          · simp at hmem
          · simp [selectMaxPolicyRun]

theorem detect_cycle_set_nonempty_witness :
    true = true ∧ ([1] : List Nat) ≠ [] ∧
      (selectMaxPolicyRun [1]).isSome :=
  detect_cycle_set_nonempty [(1, [1])] 4 1 true [1] (by decide)

/-- A two-record deadlock: transaction 1 holds record 0 and waits on record
1; transaction 2 holds record 1 and waits on record 0; the dependency graph
holds the cycle 1 waits-for 2 waits-for 1. -/
def stateDeadlock : MState :=
  ⟨[(0, ⟨⟨[⟨1, [(1, ⟨1, false⟩)]⟩, ⟨2, [(2, ⟨1, false⟩)]⟩],
      [(1, 1), (2, 2)]⟩, 1⟩),
    (1, ⟨⟨[⟨1, [(2, ⟨1, false⟩)]⟩, ⟨2, [(1, ⟨1, false⟩)]⟩],
      [(2, 1), (1, 2)]⟩, 1⟩)],
    [(1, [2]), (2, [1])]⟩

/-- Claim C6: on a detected cycle the probe is claimed to apply the victim
selection policy and deny the unique waiting request of the victim.  At
this two-record deadlock the cycle 1, 2 is detected, and the intended scan
would deny the waiting request of the maximal transaction 2 on record 0;
but the policy object is passed to DetectCycle by value, the selection
lives only in the discarded copy, and Get() on the original dereferences a
singular iterator, so the probe has no defined result (none) and no request
is ever denied. -/
theorem deadlockCheck_loses_victim :
    detectCycleCb stateDeadlock.graph 8 1 = some (true, some [1, 2]) ∧
    (denyFirstWaiting stateDeadlock.table 2).2 = some 0 ∧
    deadlockCheck 8 stateDeadlock 1 1 = none := by
  refine ⟨by decide, by decide, ?_⟩
  decide

/-- A cycle is reachable from the origin along wait-for edges: some node
reachable from the origin lies on a nontrivial edge loop. -/
def hasCycleFrom (g : DepGraph) (origin : Nat) : Prop :=
  ∃ v, Relation.ReflTransGen (DepEdge g) origin v ∧
    Relation.TransGen (DepEdge g) v v

/-- The list is a closed edge walk: consecutive edges exist along it and a
final edge closes it back to its first node. -/
def ClosedWalk (g : DepGraph) (l : List Nat) : Prop :=
  ∃ v rest, l = v :: rest ∧ List.Chain' (DepEdge g) (v :: (rest ++ [v]))

/-- The parents-map structure available at the instant the walk discovers a
cycle at node n: a duplicate-free chain ws leading back from the parent
binding of n to n itself, with a real graph edge backing every binding, and
every node on it reachable from the origin. -/
def FoundCycleChain (g : DepGraph) (parents : List (Nat × Nat))
    (origin n : Nat) : Prop :=
  ∃ ws : List Nat, n ∉ ws ∧ (n :: ws).Nodup ∧
    List.Chain' (fun a b => alookup parents a = some b) ((n :: ws) ++ [n]) ∧
    List.Chain' (fun a b => DepEdge g b a) ((n :: ws) ++ [n]) ∧
    (∀ x ∈ n :: ws, Relation.ReflTransGen (DepEdge g) origin x)

/-- The invariant of the DetectCycle walk relative to the current
recursion stack (head is the deepest node): consecutive stack nodes are
joined by edges and recorded in the parents map, the stack is
duplicate-free and reachable from the origin, the in-progress marks are
exactly the stack, and the completely-visited set is closed under edges
and free of cycles. -/
structure DfsInv (g : DepGraph) (origin : Nat) (stack : List Nat)
    (parents : List (Nat × Nat)) (visited : List (Nat × Bool)) : Prop where
  chainEdges : List.Chain' (fun a b => DepEdge g b a) stack
  chainPar : List.Chain' (fun a b => alookup parents a = some b) stack
  nodup : stack.Nodup
  inprog : ∀ x, alookup visited x = some false ↔ x ∈ stack
  reach : ∀ x ∈ stack, Relation.ReflTransGen (DepEdge g) origin x
  doneClosed : ∀ x, alookup visited x = some true →
    ∀ c, DepEdge g x c → alookup visited c = some true
  doneAcyclic : ∀ x, alookup visited x = some true →
    ¬ Relation.TransGen (DepEdge g) x x

theorem chain'_imp_mem {R S : Nat → Nat → Prop} :
    ∀ l : List Nat, List.Chain' R l →
      (∀ a ∈ l, ∀ b ∈ l, R a b → S a b) → List.Chain' S l := by
  intro l
  induction l with
  | nil => intro _ _; exact List.chain'_nil
  | cons a rest ih =>
    intro hc him
    cases rest with
    | nil => exact List.chain'_singleton a
    | cons b rest2 =>
      rw [List.chain'_cons] at hc ⊢
      refine ⟨him a (by simp) b (by simp) hc.1, ?_⟩
      exact ih hc.2 (fun x hx y hy hr =>
        him x (List.mem_cons.mpr (Or.inr hx)) y
          (List.mem_cons.mpr (Or.inr hy)) hr)

theorem doneClosed_reach (g : DepGraph) (visited : List (Nat × Bool))
    (hc : ∀ x, alookup visited x = some true →
      ∀ c, DepEdge g x c → alookup visited c = some true)
    (a b : Nat) (hr : Relation.ReflTransGen (DepEdge g) a b)
    (ha : alookup visited a = some true) : alookup visited b = some true := by
  induction hr with
  | refl => exact ha
  | tail _ he ih => exact hc _ ih _ he

theorem transGen_of_chain (g : DepGraph) :
    ∀ (l : List Nat) (a b : Nat), List.Chain (DepEdge g) a (l ++ [b]) →
      Relation.TransGen (DepEdge g) a b := by
  intro l
  induction l with
  | nil =>
    intro a b h
    simp [List.chain_cons] at h
    exact Relation.TransGen.single h
  | cons c rest ih =>
    intro a b h
    rw [List.cons_append, List.chain_cons] at h
    exact Relation.TransGen.head h.1 (ih c b h.2)

theorem chain'_alookup_aset (parents : List (Nat × Nat)) (node parent : Nat) :
    ∀ l : List Nat, node ∉ l.dropLast →
      List.Chain' (fun a b => alookup parents a = some b) l →
      List.Chain' (fun a b => alookup (aset parents node parent) a = some b)
        l := by
  intro l
  induction l with
  | nil => intro _ _; exact List.chain'_nil
  | cons a rest ih =>
    intro hnm hc
    cases rest with
    | nil => exact List.chain'_singleton a
    | cons b rest2 =>
      rw [List.chain'_cons] at hc ⊢
      have hna : node ≠ a := by
        intro he
        subst he
        exact hnm (by simp [List.dropLast])
      refine ⟨?_, ih ?_ hc.2⟩
      · rw [alookup_aset_ne parents node a parent hna]
        exact hc.1
      · intro hmem
        exact hnm (by simp [List.dropLast, hmem])

theorem notMem_stack_of_done (g : DepGraph) (origin : Nat)
    (stack : List Nat) (parents : List (Nat × Nat))
    (visited : List (Nat × Bool))
    (hinv : DfsInv g origin stack parents visited) (node : Nat)
    (hv : alookup visited node ≠ some false) : node ∉ stack := by
  intro hmem
  exact hv ((hinv.inprog node).mpr hmem)

theorem dfsInv_aset_parents (g : DepGraph) (origin : Nat)
    (stack : List Nat) (parents : List (Nat × Nat))
    (visited : List (Nat × Bool))
    (hinv : DfsInv g origin stack parents visited) (node parent : Nat)
    (hns : node ∉ stack) :
    DfsInv g origin stack (aset parents node parent) visited := by
  refine ⟨hinv.chainEdges, ?_, hinv.nodup, hinv.inprog, hinv.reach,
    hinv.doneClosed, hinv.doneAcyclic⟩
  refine chain'_alookup_aset parents node parent stack ?_ hinv.chainPar
  intro hmem
  exact hns (List.dropLast_sublist stack |>.mem hmem)

theorem dfsInv_push (g : DepGraph) (origin : Nat) (stack : List Nat)
    (parents : List (Nat × Nat)) (visited : List (Nat × Bool))
    (node parent : Nat)
    (hinv : DfsInv g origin stack parents visited)
    (hhead : stack.head? = some parent)
    (hedge : DepEdge g parent node)
    (hv : alookup visited node = none) :
    DfsInv g origin (node :: stack) (aset parents node parent)
      (aset visited node false) := by
  have hns : node ∉ stack :=
    notMem_stack_of_done g origin stack parents visited hinv node
      (by simp [hv])
  have hpmem : parent ∈ stack := List.mem_of_mem_head? (by simp [hhead])
  constructor
  · rw [List.chain'_cons']
    refine ⟨?_, hinv.chainEdges⟩
    intro y hy
    rw [hhead] at hy
    simp at hy
    subst hy
    exact hedge
  · rw [List.chain'_cons']
    refine ⟨?_, ?_⟩
    · intro y hy
      rw [hhead] at hy
      simp at hy
      subst hy
      exact alookup_aset_self parents node parent
    · refine chain'_alookup_aset parents node parent stack ?_ hinv.chainPar
      intro hmem
      exact hns (List.dropLast_sublist stack |>.mem hmem)
  · exact List.nodup_cons.mpr ⟨hns, hinv.nodup⟩
  · intro x
    by_cases hx : node = x
    · subst hx
      rw [alookup_aset_self]
      simp
    · rw [alookup_aset_ne visited node x false hx]
      rw [hinv.inprog x]
      simp [List.mem_cons]
      intro he
      exact absurd he.symm hx
  · intro x hx
    rcases List.mem_cons.mp hx with hx | hx
    · subst hx
      exact Relation.ReflTransGen.tail (hinv.reach parent hpmem) hedge
    · exact hinv.reach x hx
  · intro x hx c hc
    have hxn : x ≠ node := by
      intro he
      subst he
      rw [alookup_aset_self] at hx
      simp at hx
    rw [alookup_aset_ne visited node x false (fun he => hxn he.symm)] at hx
    have := hinv.doneClosed x hx c hc
    have hcn : c ≠ node := by
      intro he
      subst he
      rw [hv] at this
      simp at this
    rw [alookup_aset_ne visited node c false (fun he => hcn he.symm)]
    exact this
  · intro x hx
    have hxn : x ≠ node := by
      intro he
      subst he
      rw [alookup_aset_self] at hx
      simp at hx
    rw [alookup_aset_ne visited node x false (fun he => hxn he.symm)] at hx
    exact hinv.doneAcyclic x hx

theorem dfsInv_pop (g : DepGraph) (origin : Nat) (stack : List Nat)
    (parents2 : List (Nat × Nat)) (visited2 : List (Nat × Bool)) (node : Nat)
    (hinv2 : DfsInv g origin (node :: stack) parents2 visited2)
    (hkids : ∀ c, DepEdge g node c → alookup visited2 c = some true) :
    DfsInv g origin stack parents2 (aset visited2 node true) := by
  have hns : node ∉ stack := (List.nodup_cons.mp hinv2.nodup).1
  have hvn : alookup visited2 node = some false :=
    (hinv2.inprog node).mpr (by simp)
  constructor
  · exact hinv2.chainEdges.tail
  · exact hinv2.chainPar.tail
  · exact (List.nodup_cons.mp hinv2.nodup).2
  · intro x
    by_cases hx : node = x
    · subst hx
      rw [alookup_aset_self]
      simp [hns]
    · rw [alookup_aset_ne visited2 node x true hx]
      rw [hinv2.inprog x]
      simp [List.mem_cons]
      intro he
      exact absurd he.symm hx
  · intro x hx
    exact hinv2.reach x (List.mem_cons.mpr (Or.inr hx))
  · intro x hx c hc
    by_cases hxn : x = node
    · rw [hxn] at hc
      have hct := hkids c hc
      have hcn : c ≠ node := by
        intro he
        rw [he] at hct
        rw [hvn] at hct
        simp at hct
      rw [alookup_aset_ne visited2 node c true (fun he => hcn he.symm)]
      exact hct
    · rw [alookup_aset_ne visited2 node x true (fun he => hxn he.symm)] at hx
      have hct := hinv2.doneClosed x hx c hc
      have hcn : c ≠ node := by
        intro he
        rw [he] at hct
        rw [hvn] at hct
        simp at hct
      rw [alookup_aset_ne visited2 node c true (fun he => hcn he.symm)]
      exact hct
  · intro x hx
    by_cases hxn : x = node
    · intro hcyc
      rw [hxn] at hcyc
      obtain ⟨c, hc, hrtg⟩ := Relation.TransGen.head'_iff.mp hcyc
      have hct := hkids c hc
      have := doneClosed_reach g visited2 hinv2.doneClosed c node hrtg hct
      rw [hvn] at this
      simp at this
    · rw [alookup_aset_ne visited2 node x true (fun he => hxn he.symm)] at hx
      exact hinv2.doneAcyclic x hx

theorem foundChain_of_inprog (g : DepGraph) (origin : Nat) (stack : List Nat)
    (parents : List (Nat × Nat)) (visited : List (Nat × Bool))
    (node parent : Nat)
    (hinv : DfsInv g origin stack parents visited)
    (hhead : stack.head? = some parent)
    (hedge : DepEdge g parent node)
    (hmem : node ∈ stack) :
    FoundCycleChain g (aset parents node parent) origin node := by
  obtain ⟨pre, post, hsplit⟩ := List.append_of_mem hmem
  have hnodup := hinv.nodup
  rw [hsplit] at hnodup
  obtain ⟨hnp, hncp, hdisj⟩ := List.nodup_append.mp hnodup
  have hnpre : node ∉ pre := fun hc => hdisj hc (by simp)
  have hheadpn : (pre ++ [node]).head? = some parent := by
    cases pre with
    | nil =>
      simp at hsplit
      rw [hsplit] at hhead
      simp at hhead
      simp [hhead]
    | cons a pre2 =>
      rw [hsplit] at hhead
      simp at hhead
      simp [hhead]
  have hstack_eq : stack = (pre ++ [node]) ++ post := by
    rw [hsplit]
    simp
  have hchainE : List.Chain' (fun a b => DepEdge g b a) (pre ++ [node]) := by
    have hc := hinv.chainEdges
    rw [hstack_eq] at hc
    exact (List.chain'_append.mp hc).1
  have hchainP :
      List.Chain' (fun a b => alookup parents a = some b) (pre ++ [node]) := by
    have hc := hinv.chainPar
    rw [hstack_eq] at hc
    exact (List.chain'_append.mp hc).1
  refine ⟨pre, hnpre, List.nodup_cons.mpr ⟨hnpre, hnp⟩, ?_, ?_, ?_⟩
  · rw [List.cons_append, List.chain'_cons']
    refine ⟨?_, ?_⟩
    · intro y hy
      rw [hheadpn] at hy
      simp at hy
      subst hy
      exact alookup_aset_self parents node parent
    · refine chain'_alookup_aset parents node parent (pre ++ [node]) ?_ hchainP
      rw [List.dropLast_concat]
      exact hnpre
  · rw [List.cons_append, List.chain'_cons']
    refine ⟨?_, hchainE⟩
    intro y hy
    rw [hheadpn] at hy
    simp at hy
    subst hy
    exact hedge
  · intro x hx
    rcases List.mem_cons.mp hx with hx | hx
    · rw [hx]
      exact hinv.reach node hmem
    · refine hinv.reach x ?_
      rw [hsplit]
      exact List.mem_append.mpr (Or.inl hx)

/-- The behavioural specification of one recursive DetectCycle call: under
the walk invariant, with the parent on top of the stack and a real edge
from the parent to the node, a successful call either reports a cycle with
the parents-chain structure in place, or reports none, restores the
invariant, marks the node completely visited, and preserves every
completely-visited mark. -/
def VisitSpec (g : DepGraph) (origin : Nat)
    (dv : Nat → Nat → List (Nat × Nat) → List (Nat × Bool) → Option DfsRes) :
    Prop :=
  ∀ node parent parents visited stack res,
    DfsInv g origin stack parents visited →
    stack.head? = some parent →
    DepEdge g parent node →
    dv node parent parents visited = some res →
    ((∃ n, res.found = some n ∧ FoundCycleChain g res.parents origin n) ∨
     (res.found = none ∧ DfsInv g origin stack res.parents res.visited ∧
       alookup res.visited node = some true ∧
       (∀ x, alookup visited x = some true →
         alookup res.visited x = some true)))

theorem dfsKids_spec (g : DepGraph) (origin : Nat)
    (dv : Nat → Nat → List (Nat × Nat) → List (Nat × Bool) → Option DfsRes)
    (hdv : VisitSpec g origin dv) :
    ∀ (cs : List Nat) (node : Nat) (parents : List (Nat × Nat))
      (visited : List (Nat × Bool)) (stack : List Nat) (res : DfsRes),
      DfsInv g origin stack parents visited →
      stack.head? = some node →
      (∀ c ∈ cs, DepEdge g node c) →
      dfsKidsWith (fun c ps vs => dv c node ps vs) cs parents visited =
        some res →
      ((∃ n, res.found = some n ∧ FoundCycleChain g res.parents origin n) ∨
       (res.found = none ∧ DfsInv g origin stack res.parents res.visited ∧
         (∀ c ∈ cs, alookup res.visited c = some true) ∧
         (∀ x, alookup visited x = some true →
           alookup res.visited x = some true))) := by
  intro cs
  induction cs with
  | nil =>
    intro node parents visited stack res hinv hhead _ h
    unfold dfsKidsWith at h
    injection h with h2
    rw [← h2]
    exact Or.inr ⟨rfl, hinv, by simp, fun x hx => hx⟩
  | cons c cs2 ih =>
    intro node parents visited stack res hinv hhead hcs h
    unfold dfsKidsWith at h
    rcases h1 : dv c node parents visited with _ | res1
    · rw [h1] at h
      simp at h
    · simp only [h1] at h
      have hspec := hdv c node parents visited stack res1 hinv hhead
        (hcs c (by simp)) h1
      rcases hspec with ⟨n, hn, hchain⟩ | ⟨hf, hinv1, hcdone, hmono1⟩
      · simp only [hn] at h
        injection h with h2
        rw [← h2]
        exact Or.inl ⟨n, rfl, hchain⟩
      · simp only [hf] at h
        have hrest := ih node res1.parents res1.visited stack res hinv1 hhead
          (fun c2 hc2 => hcs c2 (List.mem_cons.mpr (Or.inr hc2))) h
        rcases hrest with hfound | ⟨hf2, hinv2, hdone2, hmono2⟩
        · exact Or.inl hfound
        · refine Or.inr ⟨hf2, hinv2, ?_, fun x hx => hmono2 x (hmono1 x hx)⟩
          intro c2 hc2
          rcases List.mem_cons.mp hc2 with hc2 | hc2
          · rw [hc2]
            exact hmono2 c (hcdone)
          · exact hdone2 c2 hc2

theorem dfsVisit_spec (g : DepGraph) (origin : Nat) :
    ∀ fuel, VisitSpec g origin
      (fun n p ps vs => dfsVisit g fuel n p ps vs) := by
  intro fuel
  induction fuel with
  | zero =>
    intro node parent parents visited stack res _ _ _ h
    simp [dfsVisit] at h
  | succ k ih =>
    intro node parent parents visited stack res hinv hhead hedge h
    unfold dfsVisit at h
    rcases hv : alookup visited node with _ | b
    · simp only [hv] at h
      rcases hk : dfsKidsWith (fun c ps vs => dfsVisit g k c node ps vs)
          (childrenOf g node) (aset parents node parent)
          (aset visited node false) with _ | res2
      · rw [hk] at h
        simp at h
      · simp only [hk] at h
        have hinv2 := dfsInv_push g origin stack parents visited node parent
          hinv hhead hedge hv
        have hkids := dfsKids_spec g origin _ ih (childrenOf g node) node
          (aset parents node parent) (aset visited node false)
          (node :: stack) res2 hinv2 (by simp) (fun c hc => hc) hk
        rcases hkids with ⟨n, hn, hchain⟩ | ⟨hf2, hinv2b, hcdone, hmono2⟩
        · simp only [hn] at h
          injection h with h2
          rw [← h2]
          exact Or.inl ⟨n, rfl, hchain⟩
        · simp only [hf2] at h
          injection h with h2
          rw [← h2]
          refine Or.inr ⟨rfl, ?_, ?_, ?_⟩
          · exact dfsInv_pop g origin stack res2.parents res2.visited node
              hinv2b (fun c hc => hcdone c hc)
          · exact alookup_aset_self res2.visited node true
          · intro x hx
            have hxn : x ≠ node := by
              intro he
              rw [he, hv] at hx
              simp at hx
            have h1 : alookup (aset visited node false) x = some true := by
              rw [alookup_aset_ne visited node x false (fun he => hxn he.symm)]
              exact hx
            have h2 := hmono2 x h1
            rw [alookup_aset_ne res2.visited node x true
              (fun he => hxn he.symm)]
            exact h2
    · cases b with
      | false =>
        simp only [hv] at h
        injection h with h2
        rw [← h2]
        refine Or.inl ⟨node, rfl, ?_⟩
        exact foundChain_of_inprog g origin stack parents visited node parent
          hinv hhead hedge ((hinv.inprog node).mp hv)
      | true =>
        simp only [hv] at h
        injection h with h2
        rw [← h2]
        refine Or.inr ⟨rfl, ?_, hv, fun x hx => hx⟩
        exact dfsInv_aset_parents g origin stack parents visited hinv node
          parent (notMem_stack_of_done g origin stack parents visited hinv
            node (by simp [hv]))

theorem dfsRoot_spec (g : DepGraph) (fuel origin : Nat) (res : DfsRes)
    (h : dfsRoot g fuel origin = some res) :
    (∃ n, res.found = some n ∧ FoundCycleChain g res.parents origin n) ∨
      (res.found = none ∧ ¬ hasCycleFrom g origin) := by
  unfold dfsRoot at h
  rcases hk : dfsKidsWith (fun c ps vs => dfsVisit g fuel c origin ps vs)
      (childrenOf g origin) [] (aset [] origin false) with _ | res2
  · rw [hk] at h
    simp at h
  · simp only [hk] at h
    have hinv0 : DfsInv g origin [origin] [] (aset [] origin false) := by
      constructor
      · exact List.chain'_singleton origin
      · exact List.chain'_singleton origin
      · simp
      · intro x
        by_cases hx : origin = x
        · subst hx
          simp [aset, alookup]
        · simp [aset, alookup, hx]
          intro he
          exact absurd he.symm hx
      · intro x hx
        simp at hx
        subst hx
        exact Relation.ReflTransGen.refl
      · intro x hx
        by_cases hxo : origin = x
        · subst hxo
          simp [aset, alookup] at hx
        · simp [aset, alookup, hxo] at hx
      · intro x hx
        by_cases hxo : origin = x
        · subst hxo
          simp [aset, alookup] at hx
        · simp [aset, alookup, hxo] at hx
    have hkids := dfsKids_spec g origin _ (dfsVisit_spec g origin fuel)
      (childrenOf g origin) origin [] (aset [] origin false) [origin] res2
      hinv0 rfl (fun c hc => hc) hk
    rcases hkids with ⟨n, hn, hchain⟩ | ⟨hf, hinvb, hcdone, hmono⟩
    · simp only [hn] at h
      injection h with h2
      rw [← h2]
      exact Or.inl ⟨n, rfl, hchain⟩
    · simp only [hf] at h
      injection h with h2
      rw [← h2]
      refine Or.inr ⟨rfl, ?_⟩
      have hinvf := dfsInv_pop g origin [] res2.parents res2.visited origin
        hinvb (fun c hc => hcdone c hc)
      intro hcyc
      obtain ⟨v, hrv, hvv⟩ := hcyc
      have hod : alookup (aset res2.visited origin true) origin = some true :=
        alookup_aset_self res2.visited origin true
      have hvd := doneClosed_reach g (aset res2.visited origin true)
        hinvf.doneClosed origin v hrv hod
      exact hinvf.doneAcyclic v hvd hvv

theorem head?_of_ne_nil (l : List Nat) (h : l ≠ []) :
    l.head? = some l.headI := by
  cases l with
  | nil => exact absurd rfl h
  | cons a rest => simp

theorem buildCycleLoop_go (parents : List (Nat × Nat)) (n : Nat) :
    ∀ (ws acc : List Nat),
      List.Chain' (fun a b => alookup parents a = some b) (ws ++ [n]) →
      n ∉ ws → ws.Nodup → (∀ x ∈ ws, x ∉ acc) →
      (∀ fuel out,
        buildCycleLoop fuel parents n ((ws ++ [n]).headI) acc = some out →
        out = acc ++ ws) ∧
      (∀ fuel, ws.length < fuel →
        buildCycleLoop fuel parents n ((ws ++ [n]).headI) acc =
          some (acc ++ ws)) := by
  intro ws
  induction ws with
  | nil =>
    intro acc _ _ _ _
    constructor
    · intro fuel out hout
      cases fuel with
      | zero => simp [buildCycleLoop] at hout
      | succ k =>
        simp [buildCycleLoop] at hout
        simp [← hout]
    · intro fuel hfuel
      cases fuel with
      | zero => simp at hfuel
      | succ k => simp [buildCycleLoop]
  | cons w ws2 ih =>
    intro acc hchain hnm hnd hfresh
    have hwn : w ≠ n := by
      intro he
      exact hnm (by simp [he])
    have hne2 : (ws2 ++ [n]) ≠ [] := by simp
    have hlk : alookup parents w = some ((ws2 ++ [n]).headI) := by
      have hc := (List.chain'_cons'.mp (by simpa using hchain)).1
      exact hc _ (by rw [head?_of_ne_nil _ hne2]; rfl)
    have hrest : List.Chain' (fun a b => alookup parents a = some b)
        (ws2 ++ [n]) := (List.chain'_cons'.mp (by simpa using hchain)).2
    have hwacc : w ∉ acc := hfresh w (by simp)
    have hins : insertSet acc w = acc ++ [w] := by
      simp [insertSet, hwacc]
    have hih := ih (acc ++ [w]) hrest (by
        intro hc
        exact hnm (by simp [hc])) (List.nodup_cons.mp hnd).2 (by
        intro x hx
        simp
        constructor
        · intro hc
          exact hfresh x (by simp [hx]) hc
        · intro he
          exact (List.nodup_cons.mp hnd).1 (he ▸ hx))
    constructor
    · intro fuel out hout
      cases fuel with
      | zero => simp [buildCycleLoop] at hout
      | succ k =>
        unfold buildCycleLoop at hout
        rw [if_neg (by simpa using hwn)] at hout
        rw [show ((w :: ws2 ++ [n] : List Nat)).headI = w from rfl] at hout
        rw [hlk, hins] at hout
        have := hih.1 k out hout
        rw [this]
        simp
    · intro fuel hfuel
      cases fuel with
      | zero => simp at hfuel
      | succ k =>
        unfold buildCycleLoop
        rw [if_neg (by simpa using hwn)]
        rw [show ((w :: ws2 ++ [n] : List Nat)).headI = w from rfl]
        rw [hlk, hins]
        have hk2 : ws2.length < k := by
          simp at hfuel
          omega
        have hrun := hih.2 k hk2
        have hgoal : buildCycleLoop k parents n (ws2 ++ [n]).headI
            (acc ++ [w]) = some (acc ++ w :: ws2) := by
          rw [hrun]
          simp
        exact hgoal

theorem foundChain_parts (g : DepGraph) (parents : List (Nat × Nat))
    (origin n : Nat) (hF : FoundCycleChain g parents origin n) :
    ∃ ws : List Nat, n ∉ ws ∧ (n :: ws).Nodup ∧
      alookup parents n = some ((ws ++ [n]).headI) ∧
      List.Chain' (fun a b => alookup parents a = some b) (ws ++ [n]) ∧
      List.Chain' (DepEdge g) (n :: (ws.reverse ++ [n])) ∧
      (∀ x ∈ n :: ws, Relation.ReflTransGen (DepEdge g) origin x) := by
  obtain ⟨ws, hnm, hnd, hchainP, hchainE, hreach⟩ := hF
  refine ⟨ws, hnm, hnd, ?_, ?_, ?_, hreach⟩
  · have h1 := (List.chain'_cons'.mp (by simpa using hchainP)).1
    exact h1 _ (by rw [head?_of_ne_nil _ (by simp)]; rfl)
  · exact (List.chain'_cons'.mp (by simpa using hchainP)).2
  · have h2 : List.Chain' (flip (DepEdge g)) ((n :: ws) ++ [n]) := hchainE
    have h3 := List.chain'_reverse.mpr h2
    rw [show ((n :: ws) ++ [n]).reverse = n :: (ws.reverse ++ [n]) from by
      simp] at h3
    exact h3

theorem closedWalk_of_chain (g : DepGraph) (n : Nat) (ws : List Nat)
    (h : List.Chain' (DepEdge g) (n :: (ws.reverse ++ [n]))) :
    ClosedWalk g (n :: ws.reverse) :=
  ⟨n, ws.reverse, rfl, h⟩

theorem transGen_self_of_chain (g : DepGraph) (n : Nat) (ws : List Nat)
    (h : List.Chain' (DepEdge g) (n :: (ws.reverse ++ [n]))) :
    Relation.TransGen (DepEdge g) n n :=
  transGen_of_chain g ws.reverse n n h

/-- All node identifiers appearing in the adjacency map, sources and
targets. -/
def nodesOf (g : DepGraph) : List Nat :=
  g.map Prod.fst ++ (g.map Prod.snd).flatten

theorem children_subset_nodes (g : DepGraph) (x : Nat) :
    ∀ c ∈ childrenOf g x, c ∈ nodesOf g := by
  intro c hc
  unfold childrenOf at hc
  rcases hl : alookup g x with _ | l
  · rw [hl] at hc
    simp at hc
  · rw [hl] at hc
    simp at hc
    unfold nodesOf
    refine List.mem_append.mpr (Or.inr ?_)
    rw [List.mem_flatten]
    exact ⟨l, by
      have := alookup_mem g x l hl
      exact List.mem_map.mpr ⟨(x, l), this, rfl⟩, hc⟩

theorem reach_mem_nodes (g : DepGraph) (origin x : Nat)
    (h : Relation.ReflTransGen (DepEdge g) origin x) :
    x ∈ origin :: nodesOf g := by
  induction h with
  | refl => simp
  | tail hab he ih =>
    exact List.mem_cons.mpr (Or.inr (children_subset_nodes g _ _ he))

/-- The number of node identifiers not yet recorded in the visited map. -/
def ucount (g : DepGraph) (origin : Nat) (visited : List (Nat × Bool)) :
    Nat :=
  ((origin :: nodesOf g).dedup.filter
    (fun x => (alookup visited x).isNone)).length

theorem filter_length_lt (l : List Nat) (node : Nat) (f f' : Nat → Bool) :
    l.Nodup → node ∈ l → f node = true → f' node = false →
    (∀ x, x ≠ node → f' x = f x) →
    (l.filter f').length < (l.filter f).length := by
  induction l with
  | nil =>
    intro _ hm
    simp at hm
  | cons a rest ih =>
    intro hnd hm hf hf' hag
    obtain ⟨hna, hndr⟩ := List.nodup_cons.mp hnd
    by_cases ha : a = node
    · subst ha
      rw [List.filter_cons, List.filter_cons, hf, hf']
      simp only [if_true, Bool.false_eq_true, if_false]
      have heq : rest.filter f' = rest.filter f := by
        apply List.filter_congr
        intro x hx
        exact hag x (fun he => hna (he ▸ hx))
      rw [heq]
      simp
    · have hmr : node ∈ rest := by
        rcases List.mem_cons.mp hm with h | h
        · exact absurd h.symm ha
        · exact h
      have hfa : f' a = f a := hag a ha
      rw [List.filter_cons, List.filter_cons, hfa]
      rcases hfav : f a with _ | _
      · simp only [Bool.false_eq_true, if_false]
        exact ih hndr hmr hf hf' hag
      · simp only [if_true]
        simp only [List.length_cons]
        exact Nat.succ_lt_succ (ih hndr hmr hf hf' hag)

theorem filter_length_le_of_imp (l : List Nat) (f f' : Nat → Bool)
    (h : ∀ x ∈ l, f' x = true → f x = true) :
    (l.filter f').length ≤ (l.filter f).length := by
  induction l with
  | nil => simp
  | cons a rest ih =>
    have hrest := ih (fun x hx => h x (List.mem_cons.mpr (Or.inr hx)))
    rw [List.filter_cons, List.filter_cons]
    rcases hfa' : f' a with _ | _
    · rcases hfa : f a with _ | _
      · simp only [Bool.false_eq_true, if_false]
        exact hrest
      · simp only [Bool.false_eq_true, if_false, if_true]
        exact Nat.le_succ_of_le hrest
    · rw [h a (by simp) hfa']
      simp only [if_true]
      exact Nat.succ_le_succ hrest

theorem ucount_lt_of_grey (g : DepGraph) (origin : Nat)
    (visited : List (Nat × Bool)) (node : Nat) (b : Bool)
    (hnode : node ∈ origin :: nodesOf g)
    (hv : alookup visited node = none) :
    ucount g origin (aset visited node b) < ucount g origin visited := by
  unfold ucount
  apply filter_length_lt _ node
  · exact List.nodup_dedup _
  · rw [List.mem_dedup]
    exact hnode
  · simp [hv]
  · rw [alookup_aset_self]
    simp
  · intro x hx
    rw [alookup_aset_ne visited node x b (fun he => hx he.symm)]

theorem ucount_le_of_mono (g : DepGraph) (origin : Nat)
    (visited visited' : List (Nat × Bool))
    (h : ∀ x, (alookup visited x).isSome → (alookup visited' x).isSome) :
    ucount g origin visited' ≤ ucount g origin visited := by
  unfold ucount
  apply filter_length_le_of_imp
  intro x _ hx
  simp only [Option.isNone_iff_eq_none] at hx ⊢
  rcases ho : alookup visited x with _ | v
  · rfl
  · have := h x (by simp [ho])
    rw [hx] at this
    simp at this

theorem nodup_subset_length (l m : List Nat) (hl : l.Nodup)
    (hsub : ∀ x ∈ l, x ∈ m) : l.length ≤ m.length := by
  have h1 : l.toFinset.card = l.length := List.toFinset_card_of_nodup hl
  have h2 : l.toFinset ⊆ m.toFinset := by
    intro x hx
    rw [List.mem_toFinset] at hx ⊢
    exact hsub x hx
  have h3 := Finset.card_le_card h2
  have h4 := m.toFinset_card_le
  omega

/-- Totality specification of one recursive DetectCycle call at a given
fuel: on known nodes with the visited keys among the known nodes and fewer
unvisited nodes than fuel, the call returns, only grows the visited map,
and keeps its keys among the known nodes. -/
def TotalAt (g : DepGraph) (origin fuel : Nat)
    (dv : Nat → Nat → List (Nat × Nat) → List (Nat × Bool) → Option DfsRes) :
    Prop :=
  ∀ node parent parents visited,
    node ∈ origin :: nodesOf g →
    (∀ x, (alookup visited x).isSome → x ∈ origin :: nodesOf g) →
    ucount g origin visited < fuel →
    ∃ res, dv node parent parents visited = some res ∧
      (∀ x, (alookup visited x).isSome → (alookup res.visited x).isSome) ∧
      (∀ x, (alookup res.visited x).isSome → x ∈ origin :: nodesOf g)

theorem dfsKids_total (g : DepGraph) (origin fuel : Nat)
    (dv : Nat → Nat → List (Nat × Nat) → List (Nat × Bool) → Option DfsRes)
    (hdv : TotalAt g origin fuel dv) :
    ∀ (cs : List Nat) (node : Nat) (parents : List (Nat × Nat))
      (visited : List (Nat × Bool)),
      (∀ c ∈ cs, c ∈ origin :: nodesOf g) →
      (∀ x, (alookup visited x).isSome → x ∈ origin :: nodesOf g) →
      ucount g origin visited < fuel →
      ∃ res, dfsKidsWith (fun c ps vs => dv c node ps vs) cs parents visited
          = some res ∧
        (∀ x, (alookup visited x).isSome → (alookup res.visited x).isSome) ∧
        (∀ x, (alookup res.visited x).isSome → x ∈ origin :: nodesOf g) := by
  intro cs
  induction cs with
  | nil =>
    intro node parents visited _ hkeys _
    exact ⟨⟨none, parents, visited⟩, rfl, fun x hx => hx, hkeys⟩
  | cons c cs2 ih =>
    intro node parents visited hcs hkeys hcount
    obtain ⟨res1, h1, mono1, keys1⟩ :=
      hdv c node parents visited (hcs c (by simp)) hkeys hcount
    rcases hfound : res1.found with _ | n
    · have hcount1 : ucount g origin res1.visited < fuel :=
        Nat.lt_of_le_of_lt (ucount_le_of_mono g origin visited res1.visited
          mono1) hcount
      obtain ⟨res, h2, mono2, keys2⟩ := ih node res1.parents res1.visited
        (fun c2 hc2 => hcs c2 (List.mem_cons.mpr (Or.inr hc2))) keys1 hcount1
      refine ⟨res, ?_, fun x hx => mono2 x (mono1 x hx), keys2⟩
      unfold dfsKidsWith
      rw [h1]
      simp only [hfound]
      exact h2
    · refine ⟨⟨some n, res1.parents, res1.visited⟩, ?_, mono1, keys1⟩
      unfold dfsKidsWith
      rw [h1]
      simp only [hfound]

theorem dfsVisit_total (g : DepGraph) (origin : Nat) :
    ∀ fuel, TotalAt g origin fuel
      (fun n p ps vs => dfsVisit g fuel n p ps vs) := by
  intro fuel
  induction fuel with
  | zero =>
    intro node parent parents visited _ _ hcount
    exact absurd hcount (Nat.not_lt_zero _)
  | succ k ih =>
    intro node parent parents visited hnode hkeys hcount
    rcases hv : alookup visited node with _ | b
    · have hkeys2 : ∀ x, (alookup (aset visited node false) x).isSome →
          x ∈ origin :: nodesOf g := by
        intro x hx
        by_cases hxn : x = node
        · rw [hxn]
          exact hnode
        · rw [alookup_aset_ne visited node x false
            (fun he => hxn he.symm)] at hx
          exact hkeys x hx
      have hcount2 : ucount g origin (aset visited node false) < k := by
        have := ucount_lt_of_grey g origin visited node false hnode hv
        omega
      obtain ⟨res2, hk2, mono2, keys2⟩ := dfsKids_total g origin k _ ih
        (childrenOf g node) node (aset parents node parent)
        (aset visited node false)
        (fun c hc =>
          List.mem_cons.mpr (Or.inr (children_subset_nodes g node c hc)))
        hkeys2 hcount2
      have hmono0 : ∀ x, (alookup visited x).isSome →
          (alookup res2.visited x).isSome := by
        intro x hx
        exact mono2 x (alookup_isSome_aset visited node x false hx)
      rcases hfound : res2.found with _ | n
      · refine ⟨⟨none, res2.parents, aset res2.visited node true⟩, ?_,
          ?_, ?_⟩
        · simp only [dfsVisit, hv, hk2, hfound]
        · intro x hx
          exact alookup_isSome_aset res2.visited node x true (hmono0 x hx)
        · intro x hx
          by_cases hxn : x = node
          · rw [hxn]
            exact hnode
          · rw [alookup_aset_ne res2.visited node x true
              (fun he => hxn he.symm)] at hx
            exact keys2 x hx
      · refine ⟨⟨some n, res2.parents, res2.visited⟩, ?_, hmono0, keys2⟩
        simp only [dfsVisit, hv, hk2, hfound]
    · cases b with
      | false =>
        refine ⟨⟨some node, aset parents node parent, visited⟩, ?_,
          fun x hx => hx, hkeys⟩
        simp only [dfsVisit, hv]
      | true =>
        refine ⟨⟨none, aset parents node parent, visited⟩, ?_,
          fun x hx => hx, hkeys⟩
        simp only [dfsVisit, hv]

/-- Fuel sufficient for the walk over a given graph from a given origin. -/
def dfsFuel (g : DepGraph) (origin : Nat) : Nat :=
  (origin :: nodesOf g).length + 1

theorem dfsRoot_total (g : DepGraph) (origin : Nat) :
    ∃ res, dfsRoot g (dfsFuel g origin) origin = some res := by
  have hkeys0 : ∀ x, (alookup (aset ([] : List (Nat × Bool)) origin
      false) x).isSome → x ∈ origin :: nodesOf g := by
    intro x hx
    by_cases hxo : origin = x
    · rw [← hxo]
      simp
    · simp [aset, alookup, hxo] at hx
  have hucount0 : ucount g origin (aset [] origin false) < dfsFuel g origin := by
    unfold ucount dfsFuel
    have h1 := List.length_filter_le
      (fun x => (alookup (aset ([] : List (Nat × Bool)) origin false)
        x).isNone) (origin :: nodesOf g).dedup
    have h2 := List.Sublist.length_le (List.dedup_sublist (origin :: nodesOf g))
    omega
  obtain ⟨res2, hk, mono, keys⟩ := dfsKids_total g origin (dfsFuel g origin)
    _ (dfsVisit_total g origin (dfsFuel g origin)) (childrenOf g origin)
    origin [] (aset [] origin false)
    (fun c hc =>
      List.mem_cons.mpr (Or.inr (children_subset_nodes g origin c hc)))
    hkeys0 hucount0
  rcases hfound : res2.found with _ | n
  · exact ⟨⟨none, res2.parents, aset res2.visited origin true⟩, by
      unfold dfsRoot
      rw [hk]
      simp only [hfound]⟩
  · exact ⟨⟨some n, res2.parents, res2.visited⟩, by
      unfold dfsRoot
      rw [hk]
      simp only [hfound]⟩

/-- Claim C5: cycle detection is correct.  The walk terminates on every
graph with the stated fuel; and whenever it returns, it reports true with a
nonempty node set exactly when a cycle is reachable from the origin along
wait-for edges, the reported set is exactly the node set of a genuine
duplicate-free closed edge walk reachable from the origin, and when no
cycle is reachable it returns false without invoking the handler. -/
theorem detectCycle_correct (g : DepGraph) (origin : Nat) :
    (∃ r, detectCycleCb g (dfsFuel g origin) origin = some r) ∧
    (∀ fuel b idsO, detectCycleCb g fuel origin = some (b, idsO) →
      (b = true → hasCycleFrom g origin ∧
        ∃ ids, idsO = some ids ∧ ids ≠ [] ∧
          ∃ l, l.Nodup ∧ ClosedWalk g l ∧ (∀ x, x ∈ ids ↔ x ∈ l) ∧
            ∀ x ∈ l, Relation.ReflTransGen (DepEdge g) origin x) ∧
      (b = false → idsO = none ∧ ¬ hasCycleFrom g origin) ∧
      (hasCycleFrom g origin → b = true)) := by
  constructor
  · obtain ⟨res, hr⟩ := dfsRoot_total g origin
    rcases dfsRoot_spec g (dfsFuel g origin) origin res hr with
      ⟨n, hn, hF⟩ | ⟨hnone, _⟩
    · obtain ⟨ws, hnm, hnd, hbind, hchainP, hchainE, hreach⟩ :=
        foundChain_parts g res.parents origin n hF
      have hfresh : ∀ x ∈ ws, x ∉ ([n] : List Nat) := by
        intro x hx
        simp
        intro he
        exact hnm (he ▸ hx)
      have hlen : ws.length < dfsFuel g origin := by
        have hsub : ∀ x ∈ n :: ws, x ∈ origin :: nodesOf g := by
          intro x hx
          exact reach_mem_nodes g origin x (hreach x hx)
        have := nodup_subset_length (n :: ws) (origin :: nodesOf g) hnd hsub
        unfold dfsFuel
        rw [List.length_cons, List.length_cons] at this
        rw [List.length_cons]
        omega
      have hbl := (buildCycleLoop_go res.parents n ws [n] hchainP hnm
        (List.nodup_cons.mp hnd).2 hfresh).2 (dfsFuel g origin) hlen
      refine ⟨(true, some ([n] ++ ws)), ?_⟩
      unfold detectCycleCb
      rw [hr]
      simp only [hn, hbind, hbl]
    · refine ⟨(false, none), ?_⟩
      unfold detectCycleCb
      rw [hr]
      simp only [hnone]
  · intro fuel b idsO h
    unfold detectCycleCb at h
    rcases hr : dfsRoot g fuel origin with _ | res
    · rw [hr] at h
      simp at h
    · rw [hr] at h
      rcases dfsRoot_spec g fuel origin res hr with
        ⟨n, hn, hF⟩ | ⟨hnone, hnc⟩
      · simp only [hn] at h
        obtain ⟨ws, hnm, hnd, hbind, hchainP, hchainE, hreach⟩ :=
          foundChain_parts g res.parents origin n hF
        simp only [hbind] at h
        rcases hbl : buildCycleLoop fuel res.parents n ((ws ++ [n]).headI)
            [n] with _ | out
        · rw [hbl] at h
          simp at h
        · simp only [hbl] at h
          have hp := Option.some.inj h
          rw [Prod.mk.injEq] at hp
          obtain ⟨hb, hids⟩ := hp
          have hfresh : ∀ x ∈ ws, x ∉ ([n] : List Nat) := by
            intro x hx
            simp
            intro he
            exact hnm (he ▸ hx)
          have hout : out = n :: ws := by
            have := (buildCycleLoop_go res.parents n ws [n] hchainP hnm
              (List.nodup_cons.mp hnd).2 hfresh).1 fuel out hbl
            simpa using this
          have hcyc : hasCycleFrom g origin :=
            ⟨n, hreach n (by simp),
              transGen_self_of_chain g n ws hchainE⟩
          refine ⟨?_, ?_, fun _ => hb.symm⟩
          · intro _
            refine ⟨hcyc, n :: ws, by rw [← hids, hout], by simp, ?_⟩
            refine ⟨n :: ws.reverse, ?_, closedWalk_of_chain g n ws hchainE,
              ?_, ?_⟩
            · rw [List.nodup_cons] at hnd ⊢
              refine ⟨?_, List.nodup_reverse.mpr hnd.2⟩
              rw [List.mem_reverse]
              exact hnd.1
            · intro x
              simp [List.mem_reverse]
            · intro x hx
              refine hreach x ?_
              rcases List.mem_cons.mp hx with hx | hx
              · simp [hx]
              · rw [List.mem_reverse] at hx
                exact List.mem_cons.mpr (Or.inr hx)
          · intro hbf
            rw [← hb] at hbf
            simp at hbf
      · simp only [hnone] at h
        have hp := Option.some.inj h
        rw [Prod.mk.injEq] at hp
        obtain ⟨hb, hids⟩ := hp
        refine ⟨?_, fun _ => ⟨hids.symm, hnc⟩, ?_⟩
        · intro hbt
          rw [← hb] at hbt
          simp at hbt
        · intro hc
          exact absurd hc hnc

theorem detectCycle_correct_witness :
    hasCycleFrom [(1, [2]), (2, [1])] 1 :=
  (((detectCycle_correct [(1, [2]), (2, [1])] 1).2 8 true (some [1, 2])
    (by decide)).1 rfl).1
